import Mathlib

set_option maxHeartbeats 1000000

/-!
Verification of the DFA minimizer repository (table-filling minimization).

The development shallowly embeds the Python source:
* `src/afd/representacao.py`   — the `AFD` value type;
* `src/minimizador/helpers.py` — `_encontrar_estados_alcancaveis` (BFS reachability);
* `src/minimizador/validador.py` — `validar_afd` and its three checks;
* `src/minimizador/algoritmo.py` — `DSU` and the generator `minimizar_afd`.

State labels of the original automaton are strings (as produced by the
repository's parser); states of a minimized automaton are frozensets of
strings, embedded as `Finset String`.  The nested transition dictionaries
are embedded as association lists; the diagnostic strings of the validator
are embedded as a tagged `Diag` type keeping the ERRO/AVISO severity split
and the data that each Python f-string interpolates; the generator's event
stream is embedded as the materialized list of yielded events, with the
purely cosmetic formatted strings of `info`/`step_table`/`step_update`
payloads replaced by the underlying data they are formatted from.
-/

namespace DFAMin

/-- Embedding of the Python class `AFD` (`src/afd/representacao.py`): alphabet,
states, initial state, accepting states and the nested transition dictionary,
the latter embedded as an association list of rows, one row per source state. -/
structure AFD (σ : Type) where
  alfabeto : Finset String
  estados : Finset σ
  inicial : σ
  finais : Finset σ
  transicoes : List (σ × List (String × σ))
deriving DecidableEq

/-- Embedding of Python `dict.get`: the value at the first matching key. -/
def alookup {κ β : Type} [DecidableEq κ] (k : κ) : List (κ × β) → Option β
  | [] => none
  | (a, b) :: l => if a = k then some b else alookup k l

/-- The partial transition function `transicoes.get(p, dict()).get(s)` used
throughout `algoritmo.py` and `validador.py`. -/
def AFD.trans {σ : Type} [DecidableEq σ] (afd : AFD σ) (p : σ) (s : String) : Option σ :=
  (alookup p afd.transicoes).bind (alookup s)

/-- Python's string order, used by `sorted` and by tuple comparison in the
source: lexicographic comparison of the code-point sequences, embedded as the
lexicographic order on `String.data`. -/
def strLe (a b : String) : Prop := a.data ≤ b.data

/-- Python's strict string order (see `strLe`). -/
def strLt (a b : String) : Prop := a.data < b.data

instance : DecidableRel strLe := fun a b => inferInstanceAs (Decidable (a.data ≤ b.data))

instance : DecidableRel strLt := fun a b => inferInstanceAs (Decidable (a.data < b.data))

instance : IsTrans String strLe := ⟨fun _ _ _ h1 h2 => le_trans h1 h2⟩

instance : IsAntisymm String strLe :=
  ⟨fun a b h1 h2 => by
    cases a; cases b
    exact congrArg String.mk (le_antisymm h1 h2)⟩

instance : IsTotal String strLe := ⟨fun a b => le_total a.data b.data⟩

/-- Sorting a multiset of strings in Python's string order (insertion sort
over any list representative; representatives agree up to permutation, so
the sorted result is well defined). -/
def msortStr (s : Multiset String) : List String :=
  Quot.liftOn s (fun l => List.insertionSort strLe l) fun _ _ h =>
    List.eq_of_perm_of_sorted
      ((List.perm_insertionSort _ _).trans (h.trans (List.perm_insertionSort _ _).symm))
      (List.sorted_insertionSort _ _) (List.sorted_insertionSort _ _)

/-- Embedding of Python `sorted(list(s))` on a set of strings. -/
def sortFS (s : Finset String) : List String := msortStr s.val

section Alcance

variable {σ : Type} [DecidableEq σ]

/-- One saturation round of the reachability computation: add every state of
`estados` that is the target of a defined transition out of the current set
on some symbol of the alphabet.  This is the loop body of the BFS in
`_encontrar_estados_alcancaveis` (`helpers.py`), reorganized from a
queue-driven traversal into rounds; the computed closure is the same. -/
def passoAlcance (afd : AFD σ) (s : Finset σ) : Finset σ :=
  s ∪ s.biUnion fun p =>
    afd.estados.filter fun q => ∃ a ∈ afd.alfabeto, afd.trans p a = some q

/-- Iterate `passoAlcance` a given number of rounds. -/
def alcAux (afd : AFD σ) : Nat → Finset σ → Finset σ
  | 0, s => s
  | n + 1, s => alcAux afd n (passoAlcance afd s)

/-- Embedding of `_encontrar_estados_alcancaveis` (`helpers.py`): BFS from the
initial state following defined transitions on alphabet symbols into declared
states; the empty set when the state set is empty or the initial state is not
declared.  `estados.card` rounds suffice to reach the BFS closure (proved
below in `alc_eq_iff`). -/
def encontrarEstadosAlcancaveis (afd : AFD σ) : Finset σ :=
  if afd.inicial ∈ afd.estados then alcAux afd afd.estados.card {afd.inicial} else ∅

/-- The single-step reachability relation followed by the BFS: a defined
transition on an alphabet symbol into a declared state. -/
def Passo (afd : AFD σ) (p q : σ) : Prop :=
  q ∈ afd.estados ∧ ∃ a ∈ afd.alfabeto, afd.trans p a = some q

end Alcance

/-- Tagged embedding of the validator's diagnostic strings
(`validador.py`): one constructor per `mensagens.append` site, carrying the
data the Python f-string interpolates; `avisoInalcancaveis` is the only
AVISO (warning), all other messages are ERRO. -/
inductive Diag
  | erroInicialForaDosEstados
  | erroFinaisForaDosEstados
  | erroOrigemForaDosEstados (origem : String)
  | erroSimboloForaDoAlfabeto (origem simbolo : String)
  | erroDestinoForaDosEstados (origem simbolo : String)
  | erroTransicaoAusente (estado simbolo : String)
  | avisoInalcancaveis
  | erroAfdVazio
  | erroSemAlcancaveis
deriving DecidableEq

/-- Severity of a diagnostic: `true` for the ERRO messages, `false` for the
single AVISO message. -/
def Diag.isErro : Diag → Bool
  | .avisoInalcancaveis => false
  | _ => true

/-- Diagnostics of the transition part of `_verificar_consistencia`
(`validador.py` step 3): for each row of the transition dictionary, an error
when the source state is undeclared, and for each entry of the row an error
when the symbol is not in the alphabet and an error when the destination is
undeclared. -/
def consistenciaTransicoes (afd : AFD String) : List Diag :=
  afd.transicoes.flatMap fun row =>
    (if row.1 ∈ afd.estados then [] else [Diag.erroOrigemForaDosEstados row.1]) ++
    row.2.flatMap fun st =>
      (if st.1 ∈ afd.alfabeto then [] else [Diag.erroSimboloForaDoAlfabeto row.1 st.1]) ++
      (if st.2 ∈ afd.estados then [] else [Diag.erroDestinoForaDosEstados row.1 st.1])

/-- Embedding of `_verificar_consistencia` (`validador.py`): the list of its
ERRO diagnostics.  The Python function appends the messages to a shared list
and returns `erros_consistencia == 0`; each counter increment is paired with
exactly one appended message, so the check passes iff this list is empty. -/
def verificarConsistencia (afd : AFD String) : List Diag :=
  (if afd.inicial ∈ afd.estados then [] else [Diag.erroInicialForaDosEstados]) ++
  (if afd.finais \ afd.estados = ∅ then [] else [Diag.erroFinaisForaDosEstados]) ++
  consistenciaTransicoes afd

/-- Embedding of `_verificar_determinismo` (`validador.py`): one ERRO message
per (state, symbol) pair with no defined transition; the check passes iff the
list is empty.  Python iterates over the unordered sets `estados` and
`alfabeto`; the iteration is fixed here to sorted order, which does not
change the set of produced diagnostics. -/
def verificarDeterminismo (afd : AFD String) : List Diag :=
  ((sortFS afd.estados).flatMap fun p =>
    (sortFS afd.alfabeto).flatMap fun s =>
      if afd.trans p s = none then [Diag.erroTransicaoAusente p s] else [])

/-- Embedding of `_verificar_alcancabilidade` (`validador.py`): the reachable
set (the same BFS as `_encontrar_estados_alcancaveis`) together with the
AVISO diagnostic listing the unreachable states when there are any; the
early-return guards produce the empty set with no diagnostic. -/
def verificarAlcancabilidade (afd : AFD String) : Finset String × List Diag :=
  if afd.estados = ∅ then (∅, [])
  else if afd.inicial ∉ afd.estados then (∅, [])
  else
    let alc := encontrarEstadosAlcancaveis afd
    (alc, if afd.estados \ alc = ∅ then [] else [Diag.avisoInalcancaveis])

/-- Embedding of `validar_afd` (`validador.py`).  A Python `AFD` object is
always truthy, so the guard `not afd or not afd.estados or not afd.alfabeto
or not afd.inicial` reduces to the three emptiness tests, Python string
falsiness making `not afd.inicial` the test `inicial = ""`.  The result is
the triple (is_valido, mensagens, estados_alcancaveis). -/
def validar_afd (afd : AFD String) : Bool × List Diag × Option (Finset String) :=
  if afd.estados = ∅ ∨ afd.alfabeto = ∅ ∨ afd.inicial = "" then
    (false, [Diag.erroAfdVazio], none)
  else
    let consist := verificarConsistencia afd
    let determ := verificarDeterminismo afd
    if afd.inicial ∈ afd.estados then
      let ra := verificarAlcancabilidade afd
      let extra := if ra.1 = ∅ ∧ afd.estados ≠ ∅ then [Diag.erroSemAlcancaveis] else []
      (consist.isEmpty && determ.isEmpty && extra.isEmpty,
        consist ++ determ ++ ra.2 ++ extra, some ra.1)
    else
      (consist.isEmpty && determ.isEmpty, consist ++ determ, none)

/-- Embedding of `frozenset` over a two-element pair, the canonical unordered
pair key used by `minimizar_afd`. -/
def pairFS (p q : String) : Finset String := {p, q}

/-- Event stream of the generator `minimizar_afd` (`algoritmo.py`), with one
constructor per `type` tag of the yielded dictionaries.  The human-readable
`message`/`data` strings are formatting of underlying data and are abstracted:
`step_table` keeps the snapshot of all marked pairs, `step_update` the newly
marked pairs, `result` the minimized automaton. -/
inductive Event
  | info
  | step_table (passo : Nat) (marcados : Finset (Finset String))
  | step_update (passo : Nat) (novos : Finset (Finset String))
  | result (data : AFD (Finset String))
  | error
deriving DecidableEq

/-- The initial marking (`algoritmo.py` step 1): every pair of one accepting
and one non-accepting reachable state. -/
def marcacaoInicial (afd : AFD String) (R : Finset String) : Finset (Finset String) :=
  (((afd.finais ∩ R) ×ˢ (R \ (afd.finais ∩ R))).filter fun pq => pq.1 ≠ pq.2).image
    fun pq => pairFS pq.1 pq.2

/-- The two successor states of a state pair on a symbol, when both
transitions are defined (`next_p`/`next_q` in `algoritmo.py`); `none` when
either transition is missing (that symbol is skipped for the pair). -/
def sucPar (afd : AFD String) (p q s : String) : Option (String × String) :=
  match afd.trans p s, afd.trans q s with
  | some a, some b => some (a, b)
  | _, _ => none

/-- One pass of the fixed-point iteration of `minimizar_afd`: the set
`newly_marked` computed against the marked set `marked` — the unmarked
candidate pairs for which some symbol has both successors defined, distinct,
and forming an already marked pair.  The candidate pairs are the
`itertools.combinations` of the sorted reachable states, i.e. the pairs
`(p, q)` with `p < q` drawn from `R`. -/
def novasMarcacoes (afd : AFD String) (R : Finset String)
    (marked : Finset (Finset String)) : Finset (Finset String) :=
  ((R ×ˢ R).filter fun pq : String × String => strLt pq.1 pq.2 ∧ pairFS pq.1 pq.2 ∉ marked ∧
      ∃ s ∈ afd.alfabeto, ∃ ab ∈ (sucPar afd pq.1 pq.2 s).toList,
        ab.1 ≠ ab.2 ∧ pairFS ab.1 ab.2 ∈ marked).image
    fun pq => pairFS pq.1 pq.2

/-- All unordered pairs of distinct elements of `R`; the marked sets of the
fixed-point loop live inside this set, which bounds the loop's fuel. -/
def allPairsFS (R : Finset String) : Finset (Finset String) :=
  ((R ×ˢ R).filter fun pq => pq.1 ≠ pq.2).image fun pq => pairFS pq.1 pq.2

/-- The `while True` marking loop of `minimizar_afd`, returning the yielded
events together with the final marked set.  Each productive pass yields a
`step_update` and a `step_table` event; the pass that marks nothing yields
the closing `info` message and exits.  The structural `fuel` argument bounds
the number of passes; `minimizar_afd` runs the loop with fuel
`(allPairsFS R).card + 1`, which is proved sufficient below
(`loopMarcacao_fix`), so the fuel-exhaustion branch is unreachable there. -/
def loopMarcacao (afd : AFD String) (R : Finset String) :
    Nat → Nat → Finset (Finset String) → List Event × Finset (Finset String)
  | 0, _, marked => ([], marked)
  | fuel + 1, passo, marked =>
    let novas := novasMarcacoes afd R marked
    if novas = ∅ then ([Event.info], marked)
    else
      let r := loopMarcacao afd R fuel (passo + 1) (marked ∪ novas)
      (Event.step_update passo novas :: Event.step_table passo (marked ∪ novas) :: r.1, r.2)

/-- Embedding of `DSU.find` (`algoritmo.py`): follow parent pointers to the
root.  The Python method recurses on the parent map and additionally performs
path compression, a mutation that does not change the returned root; here the
parent map is a pure function and the structural `fuel` argument bounds the
recursion depth (the chains produced by `dsuUnion` are provably shorter than
the fuel every caller passes). -/
def dsuFind : Nat → (String → String) → String → String
  | 0, _, p => p
  | fuel + 1, f, p => if f p = p then p else dsuFind fuel f (f p)

/-- Embedding of `DSU.union` (`algoritmo.py`): point the root of the first
element at the root of the second when they differ. -/
def dsuUnion (fuel : Nat) (f : String → String) (a b : String) : String → String :=
  let r1 := dsuFind fuel f a
  let r2 := dsuFind fuel f b
  if r1 = r2 then f else Function.update f r1 r2

/-- Folding `DSU.union` over a list of pairs starting from a given parent
map; `minimizar_afd` starts from the identity map (`parent = {item: item}`). -/
def dsuFold (fuel : Nat) (pairs : List (String × String)) (f : String → String) :
    String → String :=
  pairs.foldl (fun g ab => dsuUnion fuel g ab.1 ab.2) f

/-- The ordered pair list `itertools.combinations(lista, 2)`: all pairs of a
list element with a later element, in order. -/
def combin {α : Type} : List α → List (α × α)
  | [] => []
  | x :: xs => (xs.map fun y => (x, y)) ++ combin xs

/-- The candidate pair list `state_pairs` of `minimizar_afd`: combinations of
the sorted reachable states. -/
def statePairs (afd : AFD String) : List (String × String) :=
  combin (sortFS (encontrarEstadosAlcancaveis afd))

/-- Fuel for the marking loop: one more than the number of candidate pairs. -/
def loopFuel (afd : AFD String) : Nat :=
  (allPairsFS (encontrarEstadosAlcancaveis afd)).card + 1

/-- The final marked set at the fixed point of the marking loop. -/
def marcadosFinais (afd : AFD String) : Finset (Finset String) :=
  (loopMarcacao afd (encontrarEstadosAlcancaveis afd) (loopFuel afd) 1
    (marcacaoInicial afd (encontrarEstadosAlcancaveis afd))).2

/-- Fuel for `dsuFind` calls: one more than the number of candidate pairs,
an upper bound on the length of any parent chain the unions can create. -/
def dsuFuel (afd : AFD String) : Nat :=
  (statePairs afd).length + 1

/-- The parent map after `minimizar_afd` unions every unmarked candidate
pair (`algoritmo.py` Part 2). -/
def dsuFinal (afd : AFD String) : String → String :=
  dsuFold (dsuFuel afd)
    ((statePairs afd).filter fun pq => pairFS pq.1 pq.2 ∉ marcadosFinais afd) id

/-- The disjoint-set root of a state after all unions (`dsu.find(estado)`). -/
def dsuRootFinal (afd : AFD String) (x : String) : String :=
  dsuFind (dsuFuel afd) (dsuFinal afd) x

/-- The equivalence class of a reachable state: all reachable states with the
same disjoint-set root (`equivalence_classes[dsu.find(estado)]`, and the map
`state_to_class_fs` sending a state to its frozenset class). -/
def classeDe (afd : AFD String) (x : String) : Finset String :=
  (encontrarEstadosAlcancaveis afd).filter fun y => dsuRootFinal afd y = dsuRootFinal afd x

/-- The state set of the minimized automaton: the set of equivalence classes
(`min_estados_fs`). -/
def minEstados (afd : AFD String) : Finset (Finset String) :=
  (encontrarEstadosAlcancaveis afd).image (classeDe afd)

/-- The equivalence classes as a list without repetitions, used to build the
minimized transition dictionary (Python iterates over the set
`min_estados_fs`; the key order of the produced dictionary is irrelevant to
lookup). -/
def minEstadosList (afd : AFD String) : List (Finset String) :=
  ((sortFS (encontrarEstadosAlcancaveis afd)).map (classeDe afd)).dedup

/-- The representative member `rep = next(iter(fs_class))` of a class.
Python picks an arbitrary member of the frozenset; the embedding fixes the
least one. -/
def repClasse (c : Finset String) : String := (sortFS c).headI

/-- The transition dictionary of the minimized automaton (`min_transicoes`):
for each class and each alphabet symbol, if the representative has a defined
transition whose target is reachable, map the class to the target's class. -/
def minTransicoes (afd : AFD String) : List (Finset String × List (String × Finset String)) :=
  (minEstadosList afd).map fun c =>
    (c, (sortFS afd.alfabeto).filterMap fun s =>
      match afd.trans (repClasse c) s with
      | some d => if d ∈ encontrarEstadosAlcancaveis afd
          then some (s, classeDe afd d) else none
      | none => none)

/-- The accepting reachable states (`finais_alcancaveis`). -/
def finaisAlc (afd : AFD String) : Finset String :=
  afd.finais ∩ encontrarEstadosAlcancaveis afd

/-- The minimized automaton built by Part 2 of `minimizar_afd`: classes as
states, the class of the initial state as initial, the classes containing an
accepting state as accepting, and the class-level transition dictionary. -/
def minAfd (afd : AFD String) : AFD (Finset String) where
  alfabeto := afd.alfabeto
  estados := minEstados afd
  inicial := classeDe afd afd.inicial
  finais := (minEstados afd).filter fun c => ∃ x ∈ c, x ∈ finaisAlc afd
  transicoes := minTransicoes afd

/-- Embedding of the generator `minimizar_afd` (`algoritmo.py`) as the
materialized list of its yielded events, in order: the opening `info`, the
two fatal guards on the recomputed reachable set, the `info` messages about
the reachable states, the pass-0 `step_table`, the fixed-point marking loop,
the construction `info` messages, the defensive empty-classes guard, and the
terminal `result`. -/
def minimizar_afd (afd : AFD String) : List Event :=
  let R := encontrarEstadosAlcancaveis afd
  Event.info ::
  (if R = ∅ then [Event.error]
   else if afd.inicial ∉ R then [Event.error]
   else
     let m0 := marcacaoInicial afd R
     let lr := loopMarcacao afd R (loopFuel afd) 1 m0
     [Event.info] ++ (if R.card < afd.estados.card then [Event.info] else []) ++
     [Event.info, Event.step_table 0 m0] ++ lr.1 ++ [Event.info, Event.info] ++
     (if minEstados afd = ∅ then [Event.error]
      else [Event.info, Event.result (minAfd afd)]))

section Semantica

variable {σ : Type} [DecidableEq σ]

/-- Modelled from the spec: the extended transition function of an automaton
on an input string, `none` when a needed transition is missing ("Reachable
state: reachable from the initial state via zero or more transitions";
acceptance per the GLOSSARY of the spec).  The repository itself has no
simulation function; this is the standard reading used to state language
equivalence. -/
def deltaStarO (afd : AFD σ) (p : σ) : List String → Option σ
  | [] => some p
  | s :: w => (afd.trans p s).bind fun q => deltaStarO afd q w

/-- Modelled from the spec: acceptance of a word started at state `p` — the
run is defined and ends in an accepting state. -/
def aceitaDesde (afd : AFD σ) (p : σ) (w : List String) : Bool :=
  match deltaStarO afd p w with
  | some r => decide (r ∈ afd.finais)
  | none => false

/-- Modelled from the spec: the language of the automaton — acceptance from
the initial state. -/
def aceita (afd : AFD σ) (w : List String) : Bool :=
  aceitaDesde afd afd.inicial w

end Semantica

/-- Whether an event is terminal: the success `result` or the failure
`error`. -/
def Event.ehTerminal : Event → Bool
  | .result _ => true
  | .error => true
  | _ => false

/-- Whether an event is a `step_update`. -/
def Event.ehStepUpdate : Event → Bool
  | .step_update _ _ => true
  | _ => false

/-- The number of `step_update` events in an event list — one per marking
pass that marked at least one new pair. -/
def numStepUpdate (l : List Event) : Nat :=
  l.countP fun e => e.ehStepUpdate

/-- The marked set after `k` synchronous passes of the fixed-point iteration,
starting from the initial marking: the `marked_pairs` value of
`minimizar_afd` entering pass `k + 1`. -/
def marcadosAte (afd : AFD String) (R : Finset String) : Nat → Finset (Finset String)
  | 0 => marcacaoInicial afd R
  | k + 1 =>
    marcadosAte afd R k ∪ novasMarcacoes afd R (marcadosAte afd R k)

/-- All words of length at most `n` over a list of symbols. -/
def wordsLe (A : List String) : Nat → List (List String)
  | 0 => [[]]
  | n + 1 => [] :: (A.flatMap fun s => (wordsLe A n).map fun w => s :: w)

/-- Modelled from the spec: two states are `n`-equivalent when no word of
length at most `n` over the alphabet distinguishes them ("Distinguishable
pair: two states for which some input string leads one to an accepting state
and the other to a non-accepting state"). -/
def eqvAte (afd : AFD String) (n : Nat) (p q : String) : Prop :=
  ∀ w ∈ wordsLe (sortFS afd.alfabeto) n, aceitaDesde afd p w = aceitaDesde afd q w

instance (afd : AFD String) (n : Nat) (p q : String) : Decidable (eqvAte afd n p q) :=
  inferInstanceAs (Decidable (∀ w ∈ wordsLe (sortFS afd.alfabeto) n, _))

/-- Modelled from the spec: two states are indistinguishable when no word
over the alphabet distinguishes them (GLOSSARY, "Equivalence class: maximal
set of mutually indistinguishable states"). -/
def Indist (afd : AFD String) (p q : String) : Prop :=
  ∀ w : List String, (∀ s ∈ w, s ∈ afd.alfabeto) →
    aceitaDesde afd p w = aceitaDesde afd q w

/-- Iteration of a disjoint-set parent map: the ancestor of `p` after `n`
parent steps. -/
def iterParent (f : String → String) : Nat → String → String
  | 0, p => p
  | n + 1, p => iterParent f n (f p)

/-- A parent map is rooted with bound `N` when every chain of parent
pointers hits a fixed point (a root) within `N` steps; the invariant that
makes `dsuFind` meaningful. -/
def Enraizada (f : String → String) (N : Nat) : Prop :=
  ∀ p, ∃ k ≤ N, f (iterParent f k p) = iterParent f k p

/-- The canonical representatives of the `k`-equivalence classes: the
reachable states that are least (in Python's string order) within their
`eqvAte`-class.  Used to count classes in the pass bound argument. -/
def repsAte (afd : AFD String) (k : Nat) : Finset String :=
  (encontrarEstadosAlcancaveis afd).filter fun p =>
    ∀ q ∈ encontrarEstadosAlcancaveis afd, eqvAte afd k p q → strLe p q

theorem strLt_trichotomy (a b : String) : strLt a b ∨ a = b ∨ strLt b a := by
  rcases lt_trichotomy a.data b.data with h | h | h
  · exact Or.inl h
  · refine Or.inr (Or.inl ?_)
    cases a; cases b
    exact congrArg String.mk h
  · exact Or.inr (Or.inr h)

theorem strLt_irrefl (a : String) : ¬strLt a a := lt_irrefl a.data

theorem strLt_asymm {a b : String} (h : strLt a b) : ¬strLt b a := lt_asymm h

theorem msortStr_coe (s : Multiset String) : (msortStr s : Multiset String) = s := by
  induction s using Quot.inductionOn with
  | h l => exact Multiset.coe_eq_coe.2 (List.perm_insertionSort strLe l)

theorem msortStr_mem (s : Multiset String) (a : String) : a ∈ msortStr s ↔ a ∈ s := by
  rw [← Multiset.mem_coe, msortStr_coe]

theorem msortStr_sorted (s : Multiset String) : (msortStr s).Sorted strLe := by
  induction s using Quot.inductionOn with
  | h l => exact List.sorted_insertionSort _ _

theorem mem_sortFS (s : Finset String) (a : String) : a ∈ sortFS s ↔ a ∈ s := by
  rw [Finset.mem_def]
  exact msortStr_mem s.val a

theorem sortFS_sorted (s : Finset String) : (sortFS s).Sorted strLe :=
  msortStr_sorted s.val

theorem sortFS_nodup (s : Finset String) : (sortFS s).Nodup := by
  have h : Multiset.Nodup (sortFS s : Multiset String) := by
    rw [sortFS, msortStr_coe]
    exact s.nodup
  exact (Multiset.coe_nodup).1 h

section AlcanceLemmas

variable {σ : Type} [DecidableEq σ]

theorem subset_passoAlcance (afd : AFD σ) (s : Finset σ) : s ⊆ passoAlcance afd s :=
  Finset.subset_union_left

theorem passoAlcance_subset_estados (afd : AFD σ) (s : Finset σ) (hs : s ⊆ afd.estados) :
    passoAlcance afd s ⊆ afd.estados := by
  intro q hq
  rcases Finset.mem_union.1 hq with h | h
  · exact hs h
  · rcases Finset.mem_biUnion.1 h with ⟨p, _, hq⟩
    exact Finset.mem_of_mem_filter q hq

theorem mem_passoAlcance_iff (afd : AFD σ) (s : Finset σ) (q : σ) :
    q ∈ passoAlcance afd s ↔ q ∈ s ∨ ∃ p ∈ s, Passo afd p q := by
  unfold passoAlcance
  simp only [Finset.mem_union, Finset.mem_biUnion, Finset.mem_filter, Passo]

theorem alcAux_add (afd : AFD σ) (a b : Nat) (s : Finset σ) :
    alcAux afd (a + b) s = alcAux afd b (alcAux afd a s) := by
  induction a generalizing s with
  | zero => simp [alcAux]
  | succ n ih =>
    have : n + 1 + b = n + b + 1 := by omega
    rw [this]
    show alcAux afd (n + b) (passoAlcance afd s) = _
    rw [ih (passoAlcance afd s)]
    rfl

theorem alcAux_succ_comm (afd : AFD σ) (n : Nat) (s : Finset σ) :
    alcAux afd (n + 1) s = passoAlcance afd (alcAux afd n s) := by
  induction n generalizing s with
  | zero => rfl
  | succ n ih =>
    show alcAux afd (n + 1) (passoAlcance afd s) = _
    rw [ih]
    rfl

theorem subset_alcAux (afd : AFD σ) (n : Nat) (s : Finset σ) : s ⊆ alcAux afd n s := by
  induction n generalizing s with
  | zero => exact subset_rfl
  | succ n ih =>
    rw [alcAux_succ_comm]
    exact subset_trans (ih s) (subset_passoAlcance afd _)

theorem alcAux_subset_estados (afd : AFD σ) (n : Nat) (s : Finset σ)
    (hs : s ⊆ afd.estados) : alcAux afd n s ⊆ afd.estados := by
  induction n generalizing s with
  | zero => exact hs
  | succ n ih =>
    rw [alcAux_succ_comm]
    exact passoAlcance_subset_estados afd _ (ih s hs)

theorem alcAux_fix (afd : AFD σ) (n : Nat) (s : Finset σ)
    (h : passoAlcance afd s = s) : alcAux afd n s = s := by
  induction n with
  | zero => rfl
  | succ n ih => rw [alcAux_succ_comm, ih, h]

theorem alcAux_card_growth (afd : AFD σ) (n : Nat) (s : Finset σ)
    (h : ∀ j < n, alcAux afd (j + 1) s ≠ alcAux afd j s) :
    n + s.card ≤ (alcAux afd n s).card := by
  induction n with
  | zero => simp [alcAux]
  | succ n ih =>
    have h1 : n + s.card ≤ (alcAux afd n s).card :=
      ih fun j hj => h j (Nat.lt_succ_of_lt hj)
    have h2 : alcAux afd n s ⊂ alcAux afd (n + 1) s := by
      refine Finset.ssubset_iff_subset_ne.2 ⟨?_, ?_⟩
      · rw [alcAux_succ_comm]
        exact subset_passoAlcance afd _
      · exact fun he => h n (Nat.lt_succ_self n) he.symm
    have := Finset.card_lt_card h2
    omega

theorem alcAux_top_fix (afd : AFD σ) (s : Finset σ) (hs : s ⊆ afd.estados)
    (hne : s.Nonempty) :
    passoAlcance afd (alcAux afd afd.estados.card s) = alcAux afd afd.estados.card s := by
  set N := afd.estados.card with hN
  by_cases hall : ∀ j < N, alcAux afd (j + 1) s ≠ alcAux afd j s
  · exfalso
    have hcard := alcAux_card_growth afd N s hall
    have hsub := alcAux_subset_estados afd N s hs
    have h1 : 1 ≤ s.card := Finset.card_pos.2 hne
    have h2 : (alcAux afd N s).card ≤ N := Finset.card_le_card hsub
    omega
  · push_neg at hall
    rcases hall with ⟨j, hj, hfix⟩
    have hstep : passoAlcance afd (alcAux afd j s) = alcAux afd j s := by
      rw [← alcAux_succ_comm]; exact hfix
    have hNj : N = j + (N - j) := by omega
    have : alcAux afd N s = alcAux afd j s := by
      rw [hNj, alcAux_add, alcAux_fix afd _ _ hstep]
    rw [this, hstep]

theorem mem_alcAux_sound (afd : AFD σ) (n : Nat) (s : Finset σ) (q : σ)
    (hq : q ∈ alcAux afd n s) :
    ∃ p ∈ s, Relation.ReflTransGen (Passo afd) p q := by
  induction n generalizing q with
  | zero => exact ⟨q, hq, Relation.ReflTransGen.refl⟩
  | succ n ih =>
    rw [alcAux_succ_comm] at hq
    rcases (mem_passoAlcance_iff afd _ q).1 hq with h | ⟨p, hp, hstep⟩
    · exact ih q h
    · rcases ih p hp with ⟨p0, hp0, hrt⟩
      exact ⟨p0, hp0, hrt.tail hstep⟩

theorem inicial_mem_alc (afd : AFD σ) (h : afd.inicial ∈ afd.estados) :
    afd.inicial ∈ encontrarEstadosAlcancaveis afd := by
  unfold encontrarEstadosAlcancaveis
  rw [if_pos h]
  exact subset_alcAux afd _ _ (Finset.mem_singleton_self _)

theorem alc_subset_estados (afd : AFD σ) :
    encontrarEstadosAlcancaveis afd ⊆ afd.estados := by
  unfold encontrarEstadosAlcancaveis
  split
  · exact alcAux_subset_estados afd _ _ (Finset.singleton_subset_iff.2 (by assumption))
  · exact Finset.empty_subset _

theorem alc_closed (afd : AFD σ) (p q : σ) (hp : p ∈ encontrarEstadosAlcancaveis afd)
    (hstep : Passo afd p q) : q ∈ encontrarEstadosAlcancaveis afd := by
  unfold encontrarEstadosAlcancaveis at *
  by_cases h : afd.inicial ∈ afd.estados
  · rw [if_pos h] at hp ⊢
    have hfix := alcAux_top_fix afd {afd.inicial}
      (Finset.singleton_subset_iff.2 h) (Finset.singleton_nonempty _)
    rw [← hfix]
    exact (mem_passoAlcance_iff afd _ q).2 (Or.inr ⟨p, hp, hstep⟩)
  · rw [if_neg h] at hp
    exact absurd hp (Finset.not_mem_empty p)

theorem mem_alc_iff (afd : AFD σ) (q : σ) :
    q ∈ encontrarEstadosAlcancaveis afd ↔
      afd.inicial ∈ afd.estados ∧ Relation.ReflTransGen (Passo afd) afd.inicial q := by
  constructor
  · intro hq
    by_cases h : afd.inicial ∈ afd.estados
    · refine ⟨h, ?_⟩
      unfold encontrarEstadosAlcancaveis at hq
      rw [if_pos h] at hq
      rcases mem_alcAux_sound afd _ _ q hq with ⟨p, hp, hrt⟩
      rwa [Finset.mem_singleton.1 hp] at hrt
    · unfold encontrarEstadosAlcancaveis at hq
      rw [if_neg h] at hq
      exact absurd hq (Finset.not_mem_empty q)
  · rintro ⟨h, hrt⟩
    induction hrt with
    | refl => exact inicial_mem_alc afd h
    | tail _ hstep ih => exact alc_closed afd _ _ ih hstep

theorem alc_empty_iff (afd : AFD σ) :
    encontrarEstadosAlcancaveis afd = ∅ ↔ afd.inicial ∉ afd.estados := by
  constructor
  · intro h hmem
    have := inicial_mem_alc afd hmem
    rw [h] at this
    exact Finset.not_mem_empty _ this
  · intro h
    unfold encontrarEstadosAlcancaveis
    rw [if_neg h]

theorem inicial_mem_alc_iff (afd : AFD σ) :
    afd.inicial ∈ encontrarEstadosAlcancaveis afd ↔ afd.inicial ∈ afd.estados := by
  constructor
  · intro h
    exact alc_subset_estados afd h
  · exact inicial_mem_alc afd

end AlcanceLemmas

section ValidadorLemmas

theorem mem_ite_lists {α : Type} {c : Prop} [Decidable c] {d : α} {l1 l2 : List α}
    (h : d ∈ if c then l1 else l2) : d ∈ l1 ∨ d ∈ l2 := by
  split at h
  · exact Or.inl h
  · exact Or.inr h

theorem consistenciaTransicoes_all_erro (afd : AFD String) :
    ∀ d ∈ consistenciaTransicoes afd, d.isErro = true := by
  intro d hd
  unfold consistenciaTransicoes at hd
  rw [List.mem_flatMap] at hd
  obtain ⟨row, _, hd⟩ := hd
  rw [List.mem_append] at hd
  rcases hd with hd | hd
  · rcases mem_ite_lists hd with h | h
    · exact absurd h (List.not_mem_nil d)
    · rw [List.mem_singleton.1 h]; rfl
  · rw [List.mem_flatMap] at hd
    obtain ⟨st, _, hd⟩ := hd
    rw [List.mem_append] at hd
    rcases hd with hd | hd <;>
      (rcases mem_ite_lists hd with h | h
       · exact absurd h (List.not_mem_nil d)
       · rw [List.mem_singleton.1 h]; rfl)

theorem verificarConsistencia_all_erro (afd : AFD String) :
    ∀ d ∈ verificarConsistencia afd, d.isErro = true := by
  intro d hd
  unfold verificarConsistencia at hd
  rw [List.mem_append] at hd
  rcases hd with hd | hd
  · rw [List.mem_append] at hd
    rcases hd with hd | hd <;>
      (rcases mem_ite_lists hd with h | h
       · exact absurd h (List.not_mem_nil d)
       · rw [List.mem_singleton.1 h]; rfl)
  · exact consistenciaTransicoes_all_erro afd d hd

theorem verificarDeterminismo_all_erro (afd : AFD String) :
    ∀ d ∈ verificarDeterminismo afd, d.isErro = true := by
  intro d hd
  unfold verificarDeterminismo at hd
  rw [List.mem_flatMap] at hd
  obtain ⟨p, _, hd⟩ := hd
  rw [List.mem_flatMap] at hd
  obtain ⟨s, _, hd⟩ := hd
  rcases mem_ite_lists hd with h | h
  · rw [List.mem_singleton.1 h]; rfl
  · exact absurd h (List.not_mem_nil d)

theorem verificarAlcancabilidade_all_aviso (afd : AFD String) :
    ∀ d ∈ (verificarAlcancabilidade afd).2, d.isErro = false := by
  intro d hd
  unfold verificarAlcancabilidade at hd
  split at hd
  · exact absurd hd (List.not_mem_nil d)
  · split at hd
    · exact absurd hd (List.not_mem_nil d)
    · simp only at hd
      rcases mem_ite_lists hd with h | h
      · exact absurd h (List.not_mem_nil d)
      · rw [List.mem_singleton.1 h]; rfl

/-- If the consistency check produced no message, the initial state is
declared. -/
theorem consistencia_inicial (afd : AFD String)
    (h : verificarConsistencia afd = []) : afd.inicial ∈ afd.estados := by
  by_contra hn
  unfold verificarConsistencia at h
  rw [if_neg hn] at h
  simp at h

end ValidadorLemmas

section ClaimsValidador

/-- Claim C4: for every input DFA, if the recomputed reachable set is empty
or the initial state is not in it, `minimizar_afd` emits exactly the opening
`info` followed by a terminal `error` event: no `step_table`, `step_update`
or `result` event is ever emitted and no result DFA is produced. -/
theorem claim_C4 (afd : AFD String)
    (h : encontrarEstadosAlcancaveis afd = ∅ ∨
      afd.inicial ∉ encontrarEstadosAlcancaveis afd) :
    minimizar_afd afd = [Event.info, Event.error] ∧
    Event.error ∈ minimizar_afd afd ∧
    (∀ n d, Event.step_table n d ∉ minimizar_afd afd) ∧
    (∀ n d, Event.step_update n d ∉ minimizar_afd afd) ∧
    (∀ m, Event.result m ∉ minimizar_afd afd) := by
  have hR : encontrarEstadosAlcancaveis afd = ∅ := by
    rcases h with h | h
    · exact h
    · exact (alc_empty_iff afd).2 fun hm => h (inicial_mem_alc afd hm)
  have hmain : minimizar_afd afd = [Event.info, Event.error] := by
    unfold minimizar_afd
    rw [hR]
    simp
  refine ⟨hmain, ?_, ?_, ?_, ?_⟩ <;> rw [hmain]
  · simp
  · intro n d hmem
    rcases List.mem_cons.1 hmem with h | h
    · exact Event.noConfusion h
    · exact Event.noConfusion (List.mem_singleton.1 h)
  · intro n d hmem
    rcases List.mem_cons.1 hmem with h | h
    · exact Event.noConfusion h
    · exact Event.noConfusion (List.mem_singleton.1 h)
  · intro m hmem
    rcases List.mem_cons.1 hmem with h | h
    · exact Event.noConfusion h
    · exact Event.noConfusion (List.mem_singleton.1 h)

/-- Witness for C4 at a concrete automaton with an empty state set. -/
theorem claim_C4_witness :
    minimizar_afd ⟨{"a"}, ∅, "q", ∅, []⟩ = [Event.info, Event.error] :=
  (claim_C4 ⟨{"a"}, ∅, "q", ∅, []⟩ (Or.inl (by decide))).1

/-- Claim C5: an automaton with empty state set, empty alphabet or missing
(empty) initial state short-circuits `validar_afd` to invalid with exactly
the one `erroAfdVazio` Error diagnostic and no reachable set. -/
theorem claim_C5 (afd : AFD String)
    (h : afd.estados = ∅ ∨ afd.alfabeto = ∅ ∨ afd.inicial = "") :
    validar_afd afd = (false, [Diag.erroAfdVazio], none) ∧
    (validar_afd afd).1 = false ∧
    ((validar_afd afd).2.1.filter fun d => d.isErro).length = 1 ∧
    (validar_afd afd).2.2 = none := by
  have hmain : validar_afd afd = (false, [Diag.erroAfdVazio], none) := by
    unfold validar_afd
    rw [if_pos h]
  refine ⟨hmain, ?_, ?_, ?_⟩
  · rw [hmain]
  · rw [hmain]; rfl
  · rw [hmain]

/-- Witness for C5 at a concrete automaton with an empty alphabet. -/
theorem claim_C5_witness :
    validar_afd ⟨∅, {"q"}, "q", ∅, []⟩ = (false, [Diag.erroAfdVazio], none) :=
  (claim_C5 ⟨∅, {"q"}, "q", ∅, []⟩ (Or.inr (Or.inl (by decide)))).1

/-- Claim C6: `validar_afd` returns `is_valid = true` iff no Error diagnostic
was produced; and a consistent, complete automaton (with non-empty alphabet
and a present initial state) that has some unreachable declared state is
valid with exactly the unreachable-states Warning diagnostic. -/
theorem claim_C6 (afd : AFD String) :
    ((validar_afd afd).1 = true ↔ ∀ d ∈ (validar_afd afd).2.1, d.isErro = false) ∧
    (verificarConsistencia afd = [] → verificarDeterminismo afd = [] →
      afd.estados \ encontrarEstadosAlcancaveis afd ≠ ∅ →
      afd.alfabeto ≠ ∅ → afd.inicial ≠ "" →
      (validar_afd afd).1 = true ∧
      (validar_afd afd).2.1 = [Diag.avisoInalcancaveis]) := by
  constructor
  · unfold validar_afd
    split
    · constructor
      · intro h; exact absurd h (by simp)
      · intro h
        have := h Diag.erroAfdVazio (by simp)
        exact absurd this (by simp [Diag.isErro])
    · split
      · simp only [Bool.and_eq_true, List.isEmpty_iff, List.mem_append]
        constructor
        · rintro ⟨⟨hc, hd⟩, he⟩ d hmem
          rcases hmem with (hm | hm) | hm
          · rcases hm with hm | hm
            · rw [hc] at hm; exact absurd hm (List.not_mem_nil d)
            · rw [hd] at hm; exact absurd hm (List.not_mem_nil d)
          · exact verificarAlcancabilidade_all_aviso afd d hm
          · split at hm
            · rw [List.mem_singleton.1 hm]
              exfalso
              split at he
              · exact absurd he (by simp)
              · exact absurd hm (by simp_all)
            · exact absurd hm (List.not_mem_nil d)
        · intro h
          refine ⟨⟨?_, ?_⟩, ?_⟩
          · rcases hre : verificarConsistencia afd with _ | ⟨d, l⟩
            · rfl
            · have hmem : d ∈ verificarConsistencia afd := by rw [hre]; simp
              have h1 := verificarConsistencia_all_erro afd d hmem
              have h2 := h d (Or.inl (Or.inl (Or.inl hmem)))
              rw [h1] at h2; exact absurd h2 (by simp)
          · rcases hre : verificarDeterminismo afd with _ | ⟨d, l⟩
            · rfl
            · have hmem : d ∈ verificarDeterminismo afd := by rw [hre]; simp
              have h1 := verificarDeterminismo_all_erro afd d hmem
              have h2 := h d (Or.inl (Or.inl (Or.inr hmem)))
              rw [h1] at h2; exact absurd h2 (by simp)
          · split
            · rename_i hcond
              have h2 := h Diag.erroSemAlcancaveis (Or.inr (by split <;> simp_all))
              exact absurd h2 (by simp [Diag.isErro])
            · rfl
      · simp only [Bool.and_eq_true, List.isEmpty_iff, List.mem_append]
        constructor
        · rintro ⟨hc, hd⟩ d hmem
          rcases hmem with hm | hm
          · rw [hc] at hm; exact absurd hm (List.not_mem_nil d)
          · rw [hd] at hm; exact absurd hm (List.not_mem_nil d)
        · intro h
          constructor
          · rcases hre : verificarConsistencia afd with _ | ⟨d, l⟩
            · rfl
            · have hmem : d ∈ verificarConsistencia afd := by rw [hre]; simp
              have h1 := verificarConsistencia_all_erro afd d hmem
              have h2 := h d (Or.inl hmem)
              rw [h1] at h2; exact absurd h2 (by simp)
          · rcases hre : verificarDeterminismo afd with _ | ⟨d, l⟩
            · rfl
            · have hmem : d ∈ verificarDeterminismo afd := by rw [hre]; simp
              have h1 := verificarDeterminismo_all_erro afd d hmem
              have h2 := h d (Or.inr hmem)
              rw [h1] at h2; exact absurd h2 (by simp)
  · intro hcons hdet hunreach halfa hini
    have hestados : afd.estados ≠ ∅ := by
      intro h
      apply hunreach
      rw [h]
      simp
    have hmem : afd.inicial ∈ afd.estados := consistencia_inicial afd hcons
    have halcne : encontrarEstadosAlcancaveis afd ≠ ∅ := by
      intro h
      exact (alc_empty_iff afd).1 h hmem
    have hra : verificarAlcancabilidade afd =
        (encontrarEstadosAlcancaveis afd, [Diag.avisoInalcancaveis]) := by
      unfold verificarAlcancabilidade
      rw [if_neg hestados, if_neg (by simp [hmem])]
      simp only
      rw [if_neg hunreach]
    have hguard : ¬(afd.estados = ∅ ∨ afd.alfabeto = ∅ ∨ afd.inicial = "") := by
      rintro (h | h | h)
      · exact hestados h
      · exact halfa h
      · exact hini h
    unfold validar_afd
    rw [if_neg hguard, if_pos hmem, hra]
    simp [hcons, hdet, halcne]

/-- Witness for C6 at a concrete consistent, complete automaton with one
unreachable state (Scenario C of the spec). -/
theorem claim_C6_witness :
    (validar_afd ⟨{"0"}, {"A", "C"}, "A", {"A"},
      [("A", [("0", "A")]), ("C", [("0", "C")])]⟩).1 = true ∧
    (validar_afd ⟨{"0"}, {"A", "C"}, "A", {"A"},
      [("A", [("0", "A")]), ("C", [("0", "C")])]⟩).2.1 = [Diag.avisoInalcancaveis] :=
  (claim_C6 _).2 (by decide) (by decide) (by decide) (by decide) (by decide)

end ClaimsValidador

section Pares

theorem pairFS_comm (p q : String) : pairFS p q = pairFS q p := Finset.pair_comm p q

theorem mem_pairFS (x p q : String) : x ∈ pairFS p q ↔ x = p ∨ x = q := by
  unfold pairFS
  rw [Finset.mem_insert, Finset.mem_singleton]

theorem pairFS_card (p q : String) (h : p ≠ q) : (pairFS p q).card = 2 := by
  unfold pairFS
  rw [Finset.card_insert_of_not_mem (by simpa using h), Finset.card_singleton]

theorem pairFS_eq_pairFS {a b p q : String} (hab : a ≠ b)
    (h : pairFS a b = pairFS p q) : (a = p ∧ b = q) ∨ (a = q ∧ b = p) := by
  have ha : a = p ∨ a = q := (mem_pairFS a p q).1 (h ▸ (mem_pairFS a a b).2 (Or.inl rfl))
  have hb : b = p ∨ b = q := (mem_pairFS b p q).1 (h ▸ (mem_pairFS b a b).2 (Or.inr rfl))
  rcases ha with ha | ha
  · rcases hb with hb | hb
    · exact absurd (ha.trans hb.symm) hab
    · exact Or.inl ⟨ha, hb⟩
  · rcases hb with hb | hb
    · exact Or.inr ⟨ha, hb⟩
    · exact absurd (ha.trans hb.symm) hab

theorem mem_allPairsFS (R : Finset String) (t : Finset String) :
    t ∈ allPairsFS R ↔ ∃ p q, p ∈ R ∧ q ∈ R ∧ p ≠ q ∧ t = pairFS p q := by
  unfold allPairsFS
  rw [Finset.mem_image]
  constructor
  · rintro ⟨pq, hpq, rfl⟩
    rw [Finset.mem_filter, Finset.mem_product] at hpq
    exact ⟨pq.1, pq.2, hpq.1.1, hpq.1.2, hpq.2, rfl⟩
  · rintro ⟨p, q, hp, hq, hne, rfl⟩
    exact ⟨(p, q), Finset.mem_filter.2 ⟨Finset.mem_product.2 ⟨hp, hq⟩, hne⟩, rfl⟩

theorem allPairs_two_mem {R : Finset String} {t : Finset String}
    (h : t ∈ allPairsFS R) : t.card = 2 ∧ t ⊆ R := by
  rcases (mem_allPairsFS R t).1 h with ⟨p, q, hp, hq, hne, rfl⟩
  refine ⟨pairFS_card p q hne, ?_⟩
  intro x hx
  rcases (mem_pairFS x p q).1 hx with rfl | rfl
  · exact hp
  · exact hq

theorem sucPar_toList {afd : AFD String} {p q s : String} {ab : String × String} :
    ab ∈ (sucPar afd p q s).toList ↔
      afd.trans p s = some ab.1 ∧ afd.trans q s = some ab.2 := by
  unfold sucPar
  rcases h1 : afd.trans p s with _ | a <;> rcases h2 : afd.trans q s with _ | b <;>
    simp [Option.toList]
  constructor
  · rintro rfl
    exact ⟨rfl, rfl⟩
  · rintro ⟨rfl, rfl⟩
    rfl

/-- Membership characterization of the newly marked pairs of one pass,
directly from the filter defining `novasMarcacoes`. -/
theorem mem_novas_iff (afd : AFD String) (R : Finset String)
    (marked : Finset (Finset String)) (t : Finset String) :
    t ∈ novasMarcacoes afd R marked ↔
      ∃ p q, p ∈ R ∧ q ∈ R ∧ strLt p q ∧ t = pairFS p q ∧ t ∉ marked ∧
        ∃ s ∈ afd.alfabeto, ∃ a b, afd.trans p s = some a ∧ afd.trans q s = some b ∧
          a ≠ b ∧ pairFS a b ∈ marked := by
  unfold novasMarcacoes
  rw [Finset.mem_image]
  constructor
  · rintro ⟨pq, hpq, rfl⟩
    rw [Finset.mem_filter, Finset.mem_product] at hpq
    obtain ⟨⟨hp, hq⟩, hlt, hnm, s, hs, ab, hab, hne, hmk⟩ := hpq
    obtain ⟨h1, h2⟩ := sucPar_toList.1 hab
    exact ⟨pq.1, pq.2, hp, hq, hlt, rfl, hnm, s, hs, ab.1, ab.2, h1, h2, hne, hmk⟩
  · rintro ⟨p, q, hp, hq, hlt, rfl, hnm, s, hs, a, b, h1, h2, hne, hmk⟩
    refine ⟨(p, q), ?_, rfl⟩
    rw [Finset.mem_filter, Finset.mem_product]
    exact ⟨⟨hp, hq⟩, hlt, hnm, s, hs, (a, b), sucPar_toList.2 ⟨h1, h2⟩, hne, hmk⟩

theorem novas_subset_allPairs (afd : AFD String) (R : Finset String)
    (marked : Finset (Finset String)) :
    novasMarcacoes afd R marked ⊆ allPairsFS R := by
  intro t ht
  rcases (mem_novas_iff afd R marked t).1 ht with ⟨p, q, hp, hq, hlt, rfl, _⟩
  exact (mem_allPairsFS R _).2 ⟨p, q, hp, hq, fun h => strLt_irrefl p (h ▸ hlt), rfl⟩

theorem novas_disjoint (afd : AFD String) (R : Finset String)
    (marked : Finset (Finset String)) :
    Disjoint (novasMarcacoes afd R marked) marked := by
  rw [Finset.disjoint_left]
  intro t ht hmem
  rcases (mem_novas_iff afd R marked t).1 ht with ⟨p, q, _, _, _, rfl, hnm, _⟩
  exact hnm hmem

theorem marcacaoInicial_subset (afd : AFD String) (R : Finset String) :
    marcacaoInicial afd R ⊆ allPairsFS R := by
  intro t ht
  unfold marcacaoInicial at ht
  rw [Finset.mem_image] at ht
  obtain ⟨pq, hpq, rfl⟩ := ht
  rw [Finset.mem_filter, Finset.mem_product] at hpq
  obtain ⟨⟨hp, hq⟩, hne⟩ := hpq
  refine (mem_allPairsFS R _).2 ⟨pq.1, pq.2, ?_, ?_, hne, rfl⟩
  · exact (Finset.mem_inter.1 hp).2
  · exact (Finset.mem_sdiff.1 hq).1

/-- Claim C7: during a pass of the marking loop (any marked set of genuine
two-element reachable pairs), an unmarked candidate pair is newly marked iff
some symbol has both successor transitions defined and the successor pair
already marked; symbols with a missing successor transition are skipped and
never cause a mark. -/
theorem claim_C7 (afd : AFD String) (marked : Finset (Finset String)) (p q : String)
    (hM : marked ⊆ allPairsFS (encontrarEstadosAlcancaveis afd))
    (hp : p ∈ encontrarEstadosAlcancaveis afd) (hq : q ∈ encontrarEstadosAlcancaveis afd)
    (hne : p ≠ q) (hnm : pairFS p q ∉ marked) :
    pairFS p q ∈ novasMarcacoes afd (encontrarEstadosAlcancaveis afd) marked ↔
      ∃ s ∈ afd.alfabeto, ∃ a b, afd.trans p s = some a ∧ afd.trans q s = some b ∧
        pairFS a b ∈ marked := by
  set R := encontrarEstadosAlcancaveis afd
  constructor
  · intro h
    rcases (mem_novas_iff afd R marked _).1 h with
      ⟨x, y, _, _, hlt, hpair, _, s, hs, a, b, h1, h2, hab, hmk⟩
    have hxy : x ≠ y := fun h => strLt_irrefl x (h ▸ hlt)
    rcases pairFS_eq_pairFS hxy hpair.symm with ⟨rfl, rfl⟩ | ⟨rfl, rfl⟩
    · exact ⟨s, hs, a, b, h1, h2, hmk⟩
    · exact ⟨s, hs, b, a, h2, h1, pairFS_comm a b ▸ hmk⟩
  · rintro ⟨s, hs, a, b, h1, h2, hmk⟩
    have hab : a ≠ b := by
      rintro rfl
      have h2 := (allPairs_two_mem (hM hmk)).1
      have : (pairFS a a).card = 1 := by
        unfold pairFS
        rw [Finset.insert_eq_self.2 (Finset.mem_singleton_self a), Finset.card_singleton]
      omega
    rcases strLt_trichotomy p q with hlt | heq | hlt
    · exact (mem_novas_iff afd R marked _).2
        ⟨p, q, hp, hq, hlt, rfl, hnm, s, hs, a, b, h1, h2, hab, hmk⟩
    · exact absurd heq hne
    · refine (mem_novas_iff afd R marked _).2
        ⟨q, p, hq, hp, hlt, pairFS_comm p q, ?_, s, hs, b, a, h2, h1, hab.symm,
          pairFS_comm a b ▸ hmk⟩
      exact hnm

/-- Witness for C7 at a concrete three-state automaton and the marked set
after the initial marking. -/
theorem claim_C7_witness :
    pairFS "A" "B" ∈ novasMarcacoes
      ⟨{"a"}, {"A", "B", "C"}, "A", {"C"},
        [("A", [("a", "B")]), ("B", [("a", "C")]), ("C", [("a", "C")])]⟩
      (encontrarEstadosAlcancaveis ⟨{"a"}, {"A", "B", "C"}, "A", {"C"},
        [("A", [("a", "B")]), ("B", [("a", "C")]), ("C", [("a", "C")])]⟩)
      {pairFS "A" "C", pairFS "B" "C"} :=
  (claim_C7 ⟨{"a"}, {"A", "B", "C"}, "A", {"C"},
      [("A", [("a", "B")]), ("B", [("a", "C")]), ("C", [("a", "C")])]⟩
    {pairFS "A" "C", pairFS "B" "C"} "A" "B" (by decide) (by decide) (by decide)
    (by decide) (by decide)).2
    ⟨"a", by decide, "B", "C", by decide, by decide, by decide⟩

end Pares

section Loop

theorem loopMarcacao_succ (afd : AFD String) (R : Finset String) (fuel passo : Nat)
    (marked : Finset (Finset String)) :
    loopMarcacao afd R (fuel + 1) passo marked =
      if novasMarcacoes afd R marked = ∅ then ([Event.info], marked)
      else
        (Event.step_update passo (novasMarcacoes afd R marked) ::
          Event.step_table passo (marked ∪ novasMarcacoes afd R marked) ::
          (loopMarcacao afd R fuel (passo + 1) (marked ∪ novasMarcacoes afd R marked)).1,
         (loopMarcacao afd R fuel (passo + 1) (marked ∪ novasMarcacoes afd R marked)).2) :=
  rfl

theorem loopMarcacao_final_subset (afd : AFD String) (R : Finset String)
    (fuel : Nat) :
    ∀ (passo : Nat) (marked : Finset (Finset String)), marked ⊆ allPairsFS R →
      (loopMarcacao afd R fuel passo marked).2 ⊆ allPairsFS R := by
  induction fuel with
  | zero => intro passo marked h; exact h
  | succ n ih =>
    intro passo marked h
    rw [loopMarcacao_succ]
    split
    · exact h
    · exact ih (passo + 1) _ (Finset.union_subset h (novas_subset_allPairs afd R marked))

theorem loopMarcacao_fix (afd : AFD String) (R : Finset String) (fuel : Nat) :
    ∀ (passo : Nat) (marked : Finset (Finset String)), marked ⊆ allPairsFS R →
      (allPairsFS R).card - marked.card < fuel →
      novasMarcacoes afd R (loopMarcacao afd R fuel passo marked).2 = ∅ := by
  induction fuel with
  | zero => intro passo marked _ h; omega
  | succ n ih =>
    intro passo marked hsub hcard
    rw [loopMarcacao_succ]
    split
    · assumption
    · rename_i hne
      have hdis := novas_disjoint afd R marked
      have hpos : 0 < (novasMarcacoes afd R marked).card :=
        Finset.card_pos.2 (Finset.nonempty_iff_ne_empty.2 hne)
      have hunion : (marked ∪ novasMarcacoes afd R marked).card =
          marked.card + (novasMarcacoes afd R marked).card := by
        rw [Finset.card_union_of_disjoint hdis.symm]
      have hsub2 : marked ∪ novasMarcacoes afd R marked ⊆ allPairsFS R :=
        Finset.union_subset hsub (novas_subset_allPairs afd R marked)
      have hle : (marked ∪ novasMarcacoes afd R marked).card ≤ (allPairsFS R).card :=
        Finset.card_le_card hsub2
      exact ih (passo + 1) _ hsub2 (by omega)

theorem loopMarcacao_final_grows (afd : AFD String) (R : Finset String) (fuel : Nat) :
    ∀ (passo : Nat) (marked : Finset (Finset String)),
      marked ⊆ (loopMarcacao afd R fuel passo marked).2 := by
  induction fuel with
  | zero => intro passo marked; exact subset_rfl
  | succ n ih =>
    intro passo marked
    rw [loopMarcacao_succ]
    split
    · exact subset_rfl
    · exact subset_trans Finset.subset_union_left (ih (passo + 1) _)

theorem loopMarcacao_no_terminal (afd : AFD String) (R : Finset String) (fuel : Nat) :
    ∀ (passo : Nat) (marked : Finset (Finset String)),
      ∀ e ∈ (loopMarcacao afd R fuel passo marked).1, e.ehTerminal = false := by
  induction fuel with
  | zero =>
    intro passo marked e he
    exact absurd he (List.not_mem_nil e)
  | succ n ih =>
    intro passo marked e he
    rw [loopMarcacao_succ] at he
    split at he
    · rw [List.mem_singleton.1 he]; rfl
    · rcases List.mem_cons.1 he with rfl | he
      · rfl
      · rcases List.mem_cons.1 he with rfl | he
        · rfl
        · exact ih (passo + 1) _ e he

/-- Every event of the marking loop is an `info`, a `step_update` or a
`step_table`; in particular no `result` and no `error`. -/
theorem loopMarcacao_no_result (afd : AFD String) (R : Finset String) (fuel passo : Nat)
    (marked : Finset (Finset String)) (M : AFD (Finset String)) :
    Event.result M ∉ (loopMarcacao afd R fuel passo marked).1 := by
  intro h
  have := loopMarcacao_no_terminal afd R fuel passo marked _ h
  exact Bool.noConfusion this

end Loop

section ClaimsEventos

/-- The event stream of `minimizar_afd` on the successful path, with the
guards' conditions as hypotheses. -/
theorem minimizar_eq_main (afd : AFD String)
    (h1 : encontrarEstadosAlcancaveis afd ≠ ∅)
    (h2 : afd.inicial ∈ encontrarEstadosAlcancaveis afd) :
    minimizar_afd afd =
      Event.info ::
        ([Event.info] ++
          (if (encontrarEstadosAlcancaveis afd).card < afd.estados.card
            then [Event.info] else []) ++
          [Event.info, Event.step_table 0
            (marcacaoInicial afd (encontrarEstadosAlcancaveis afd))] ++
          (loopMarcacao afd (encontrarEstadosAlcancaveis afd) (loopFuel afd) 1
            (marcacaoInicial afd (encontrarEstadosAlcancaveis afd))).1 ++
          [Event.info, Event.info] ++
          (if minEstados afd = ∅ then [Event.error]
            else [Event.info, Event.result (minAfd afd)])) := by
  simp only [minimizar_afd]
  rw [if_neg h1, if_neg (show ¬afd.inicial ∉ encontrarEstadosAlcancaveis afd by
    simpa using h2)]

/-- The guard paths of `minimizar_afd`: both fatal conditions yield the
opening `info` followed by the terminal `error`. -/
theorem minimizar_eq_guard (afd : AFD String)
    (h : encontrarEstadosAlcancaveis afd = ∅ ∨
      afd.inicial ∉ encontrarEstadosAlcancaveis afd) :
    minimizar_afd afd = [Event.info, Event.error] := by
  have hR : encontrarEstadosAlcancaveis afd = ∅ := by
    rcases h with h | h
    · exact h
    · exact (alc_empty_iff afd).2 fun hm => h (inicial_mem_alc afd hm)
  simp only [minimizar_afd]
  rw [if_pos hR]

/-- If a `result` event is emitted, its payload is the constructed minimized
automaton and all guards passed. -/
theorem result_mem_minimizar (afd : AFD String) (M : AFD (Finset String))
    (h : Event.result M ∈ minimizar_afd afd) :
    M = minAfd afd ∧ encontrarEstadosAlcancaveis afd ≠ ∅ ∧
      afd.inicial ∈ encontrarEstadosAlcancaveis afd ∧ minEstados afd ≠ ∅ := by
  by_cases h1 : encontrarEstadosAlcancaveis afd = ∅
  · rw [minimizar_eq_guard afd (Or.inl h1)] at h
    rcases List.mem_cons.1 h with h | h
    · exact Event.noConfusion h
    · exact Event.noConfusion (List.mem_singleton.1 h)
  · by_cases h2 : afd.inicial ∈ encontrarEstadosAlcancaveis afd
    · rw [minimizar_eq_main afd h1 h2] at h
      by_cases hcls : minEstados afd = ∅
      · exfalso
        rw [if_pos hcls] at h
        simp only [List.mem_cons, List.mem_append, List.mem_singleton,
          List.not_mem_nil, or_false, false_or] at h
        rcases h with h | h
        · exact Event.noConfusion h
        rcases h with ((((h | h) | h) | h) | h) | h
        · exact Event.noConfusion h
        · rcases mem_ite_lists h with h | h
          · exact Event.noConfusion (List.mem_singleton.1 h)
          · exact absurd h (List.not_mem_nil _)
        · rcases h with h | h
          · exact Event.noConfusion h
          · exact Event.noConfusion h
        · exact absurd h (loopMarcacao_no_result afd _ _ _ _ M)
        · rcases h with h | h
          · exact Event.noConfusion h
          · exact Event.noConfusion h
        · exact Event.noConfusion h
      · rw [if_neg hcls] at h
        refine ⟨?_, h1, h2, hcls⟩
        simp only [List.mem_cons, List.mem_append, List.mem_singleton,
          List.not_mem_nil, or_false, false_or] at h
        rcases h with h | h
        · exact Event.noConfusion h
        rcases h with ((((h | h) | h) | h) | h) | h
        · exact Event.noConfusion h
        · rcases mem_ite_lists h with h | h
          · exact Event.noConfusion (List.mem_singleton.1 h)
          · exact absurd h (List.not_mem_nil _)
        · rcases h with h | h
          · exact Event.noConfusion h
          · exact Event.noConfusion h
        · exact absurd h (loopMarcacao_no_result afd _ _ _ _ M)
        · rcases h with h | h
          · exact Event.noConfusion h
          · exact Event.noConfusion h
        · rcases h with h | h
          · exact Event.noConfusion h
          · injection h
    · rw [minimizar_eq_guard afd (Or.inr h2)] at h
      rcases List.mem_cons.1 h with h | h
      · exact Event.noConfusion h
      · exact Event.noConfusion (List.mem_singleton.1 h)

/-- No event of the successful path before the final guard is terminal. -/
theorem minimizar_prefix_no_terminal (afd : AFD String) (x : Event)
    (hx : x ∈ [Event.info] ++
      (if (encontrarEstadosAlcancaveis afd).card < afd.estados.card
        then [Event.info] else []) ++
      [Event.info, Event.step_table 0
        (marcacaoInicial afd (encontrarEstadosAlcancaveis afd))] ++
      (loopMarcacao afd (encontrarEstadosAlcancaveis afd) (loopFuel afd) 1
        (marcacaoInicial afd (encontrarEstadosAlcancaveis afd))).1 ++
      [Event.info, Event.info]) :
    x.ehTerminal = false := by
  simp only [List.mem_append, List.mem_cons, List.mem_singleton, List.not_mem_nil,
    or_false, false_or] at hx
  rcases hx with (((hx | hx) | hx) | hx) | hx
  · rw [hx]; rfl
  · rcases mem_ite_lists hx with hx | hx
    · rw [List.mem_singleton.1 hx]; rfl
    · exact absurd hx (List.not_mem_nil x)
  · rcases hx with hx | hx <;> (rw [hx]; rfl)
  · exact loopMarcacao_no_terminal afd _ _ _ _ x hx
  · rcases hx with hx | hx <;> (rw [hx]; rfl)

/-- Claim C9: every complete run of `minimizar_afd` contains exactly one
terminal event (a `result` or an `error`), and it is the last event of the
sequence: the stream splits as a terminal-free prefix followed by the one
terminal event. -/
theorem claim_C9 (afd : AFD String) :
    ∃ l e, minimizar_afd afd = l ++ [e] ∧ e.ehTerminal = true ∧
      ∀ x ∈ l, x.ehTerminal = false := by
  by_cases h1 : encontrarEstadosAlcancaveis afd = ∅
  · exact ⟨[Event.info], Event.error,
      by rw [minimizar_eq_guard afd (Or.inl h1)]; rfl, rfl,
      fun x hx => by rw [List.mem_singleton.1 hx]; rfl⟩
  by_cases h2 : afd.inicial ∈ encontrarEstadosAlcancaveis afd
  swap
  · exact ⟨[Event.info], Event.error,
      by rw [minimizar_eq_guard afd (Or.inr h2)]; rfl, rfl,
      fun x hx => by rw [List.mem_singleton.1 hx]; rfl⟩
  by_cases hcls : minEstados afd = ∅
  · refine ⟨Event.info :: ([Event.info] ++
      (if (encontrarEstadosAlcancaveis afd).card < afd.estados.card
        then [Event.info] else []) ++
      [Event.info, Event.step_table 0
        (marcacaoInicial afd (encontrarEstadosAlcancaveis afd))] ++
      (loopMarcacao afd (encontrarEstadosAlcancaveis afd) (loopFuel afd) 1
        (marcacaoInicial afd (encontrarEstadosAlcancaveis afd))).1 ++
      [Event.info, Event.info]), Event.error, ?_, rfl, ?_⟩
    · rw [minimizar_eq_main afd h1 h2, if_pos hcls]
      simp [List.append_assoc]
    · intro x hx
      rcases List.mem_cons.1 hx with rfl | hx
      · rfl
      · exact minimizar_prefix_no_terminal afd x hx
  · refine ⟨Event.info :: (([Event.info] ++
      (if (encontrarEstadosAlcancaveis afd).card < afd.estados.card
        then [Event.info] else []) ++
      [Event.info, Event.step_table 0
        (marcacaoInicial afd (encontrarEstadosAlcancaveis afd))] ++
      (loopMarcacao afd (encontrarEstadosAlcancaveis afd) (loopFuel afd) 1
        (marcacaoInicial afd (encontrarEstadosAlcancaveis afd))).1 ++
      [Event.info, Event.info]) ++ [Event.info]),
      Event.result (minAfd afd), ?_, rfl, ?_⟩
    · rw [minimizar_eq_main afd h1 h2, if_neg hcls]
      simp [List.append_assoc]
    · intro x hx
      rcases List.mem_cons.1 hx with rfl | hx
      · rfl
      rcases List.mem_append.1 hx with hx | hx
      · exact minimizar_prefix_no_terminal afd x hx
      · rw [List.mem_singleton.1 hx]; rfl

theorem mem_classeDe (afd : AFD String) (x y : String) :
    y ∈ classeDe afd x ↔
      y ∈ encontrarEstadosAlcancaveis afd ∧ dsuRootFinal afd y = dsuRootFinal afd x := by
  unfold classeDe
  rw [Finset.mem_filter]

theorem self_mem_classeDe (afd : AFD String) (x : String)
    (hx : x ∈ encontrarEstadosAlcancaveis afd) : x ∈ classeDe afd x :=
  (mem_classeDe afd x x).2 ⟨hx, rfl⟩

theorem classeDe_subset_alc (afd : AFD String) (x : String) :
    classeDe afd x ⊆ encontrarEstadosAlcancaveis afd :=
  Finset.filter_subset _ _

theorem mem_minEstados (afd : AFD String) (c : Finset String) :
    c ∈ minEstados afd ↔
      ∃ x ∈ encontrarEstadosAlcancaveis afd, classeDe afd x = c := by
  unfold minEstados
  rw [Finset.mem_image]

theorem mem_minEstadosList (afd : AFD String) (c : Finset String) :
    c ∈ minEstadosList afd ↔ c ∈ minEstados afd := by
  unfold minEstadosList
  rw [List.mem_dedup, List.mem_map, mem_minEstados]
  constructor
  · rintro ⟨x, hx, rfl⟩
    exact ⟨x, (mem_sortFS _ x).1 hx, rfl⟩
  · rintro ⟨x, hx, rfl⟩
    exact ⟨x, (mem_sortFS _ x).2 hx, rfl⟩

/-- Claim C10: whenever a `result` event is emitted, the produced automaton
is structurally consistent: its alphabet is the input's alphabet, its initial
state and the source and destination of every transition belong to its state
set, every transition symbol belongs to its alphabet, its accepting set is a
subset of its state set, and every state is a non-empty set of declared
original state labels. -/
theorem claim_C10 (afd : AFD String) (M : AFD (Finset String))
    (h : Event.result M ∈ minimizar_afd afd) :
    M.alfabeto = afd.alfabeto ∧
    M.inicial ∈ M.estados ∧
    M.finais ⊆ M.estados ∧
    (∀ row ∈ M.transicoes, row.1 ∈ M.estados ∧
      ∀ st ∈ row.2, st.1 ∈ M.alfabeto ∧ st.2 ∈ M.estados) ∧
    (∀ c ∈ M.estados, c.Nonempty ∧ c ⊆ afd.estados) := by
  obtain ⟨rfl, h1, h2, hcls⟩ := result_mem_minimizar afd M h
  refine ⟨rfl, ?_, ?_, ?_, ?_⟩
  · exact (mem_minEstados afd _).2 ⟨afd.inicial, h2, rfl⟩
  · exact Finset.filter_subset _ _
  · intro row hrow
    unfold minAfd minTransicoes at hrow
    simp only [List.mem_map] at hrow
    obtain ⟨c, hc, rfl⟩ := hrow
    have hcmem : c ∈ minEstados afd := (mem_minEstadosList afd c).1 hc
    refine ⟨hcmem, ?_⟩
    intro st hst
    simp only [List.mem_filterMap] at hst
    obtain ⟨s, hs, hf⟩ := hst
    rcases htr : afd.trans (repClasse c) s with _ | d
    · rw [htr] at hf
      exact Option.noConfusion hf
    · rw [htr] at hf
      have hf2 : (if d ∈ encontrarEstadosAlcancaveis afd
          then some (s, classeDe afd d) else none) = some st := hf
      by_cases hd : d ∈ encontrarEstadosAlcancaveis afd
      · rw [if_pos hd] at hf2
        obtain rfl : (s, classeDe afd d) = st := Option.some.inj hf2
        exact ⟨(mem_sortFS afd.alfabeto _).1 hs,
          (mem_minEstados afd _).2 ⟨d, hd, rfl⟩⟩
      · rw [if_neg hd] at hf2
        exact Option.noConfusion hf2
  · intro c hcmem
    obtain ⟨x, hx, rfl⟩ := (mem_minEstados afd c).1 hcmem
    exact ⟨⟨x, self_mem_classeDe afd x hx⟩,
      subset_trans (classeDe_subset_alc afd x) (alc_subset_estados afd)⟩

/-- Witness for C10 at a concrete two-state automaton. -/
theorem claim_C10_witness :
    (minAfd ⟨{"a"}, {"A", "B"}, "A", {"B"},
      [("A", [("a", "B")]), ("B", [("a", "B")])]⟩).inicial ∈
      (minAfd ⟨{"a"}, {"A", "B"}, "A", {"B"},
        [("A", [("a", "B")]), ("B", [("a", "B")])]⟩).estados :=
  (claim_C10 ⟨{"a"}, {"A", "B"}, "A", {"B"},
    [("A", [("a", "B")]), ("B", [("a", "B")])]⟩ _ (by decide)).2.1

end ClaimsEventos

section Validade

theorem alookup_mem {κ β : Type} [DecidableEq κ] {k : κ} {b : β} :
    ∀ {l : List (κ × β)}, alookup k l = some b → (k, b) ∈ l := by
  intro l
  induction l with
  | nil => intro h; exact Option.noConfusion h
  | cons hd tl ih =>
    intro h
    unfold alookup at h
    split at h
    · rename_i heq
      rcases Option.some.inj h with rfl
      rcases hd with ⟨a, c⟩
      rw [List.mem_cons]
      left
      rw [show a = k from heq]
    · exact List.mem_cons.2 (Or.inr (ih h))

theorem ite_nil_singleton_eq_nil {c : Prop} [Decidable c] {x : Diag}
    (h : (if c then ([] : List Diag) else [x]) = []) : c := by
  by_contra hn
  rw [if_neg hn] at h
  exact List.noConfusion h

theorem ite_singleton_nil_eq_nil {c : Prop} [Decidable c] {x : Diag}
    (h : (if c then [x] else ([] : List Diag)) = []) : ¬c := by
  intro hc
  rw [if_pos hc] at h
  exact List.noConfusion h

/-- A valid automaton passed both the consistency and the completeness
check. -/
theorem valid_checks (afd : AFD String) (hv : (validar_afd afd).1 = true) :
    verificarConsistencia afd = [] ∧ verificarDeterminismo afd = [] := by
  unfold validar_afd at hv
  split at hv
  · exact Bool.noConfusion hv
  · split at hv <;>
      (simp only [Bool.and_eq_true, List.isEmpty_iff] at hv; tauto)

/-- For a valid automaton, the initial state is declared. -/
theorem valid_inicial (afd : AFD String) (hv : (validar_afd afd).1 = true) :
    afd.inicial ∈ afd.estados :=
  consistencia_inicial afd (valid_checks afd hv).1

/-- For a valid automaton, every defined transition has its symbol in the
alphabet and its destination among the declared states. -/
theorem valid_trans (afd : AFD String) (hv : (validar_afd afd).1 = true)
    {p s : String} {q : String} (h : afd.trans p s = some q) :
    s ∈ afd.alfabeto ∧ q ∈ afd.estados := by
  have hcons := (valid_checks afd hv).1
  unfold verificarConsistencia at hcons
  rcases List.append_eq_nil.1 hcons with ⟨_, htr⟩
  unfold AFD.trans at h
  rcases hrow : alookup p afd.transicoes with _ | row
  · rw [hrow] at h
    exact Option.noConfusion h
  · rw [hrow] at h
    have hrowmem : (p, row) ∈ afd.transicoes := alookup_mem hrow
    have hstmem : (s, q) ∈ row := alookup_mem h
    unfold consistenciaTransicoes at htr
    rw [List.flatMap_eq_nil_iff] at htr
    have hthis := htr (p, row) hrowmem
    rcases List.append_eq_nil.1 hthis with ⟨_, hinner⟩
    rw [List.flatMap_eq_nil_iff] at hinner
    have hst := hinner (s, q) hstmem
    rcases List.append_eq_nil.1 hst with ⟨h1, h2⟩
    exact ⟨ite_nil_singleton_eq_nil h1, ite_nil_singleton_eq_nil h2⟩

/-- For a valid automaton, the transition function is total on declared
states and alphabet symbols. -/
theorem valid_complete (afd : AFD String) (hv : (validar_afd afd).1 = true)
    {p s : String} (hp : p ∈ afd.estados) (hs : s ∈ afd.alfabeto) :
    ∃ q, afd.trans p s = some q := by
  have hdet := (valid_checks afd hv).2
  unfold verificarDeterminismo at hdet
  rw [List.flatMap_eq_nil_iff] at hdet
  have h1 := hdet p ((mem_sortFS afd.estados p).2 hp)
  rw [List.flatMap_eq_nil_iff] at h1
  have h2 := h1 s ((mem_sortFS afd.alfabeto s).2 hs)
  rcases hq : afd.trans p s with _ | q
  · exfalso
    rw [if_pos hq] at h2
    exact List.noConfusion h2
  · exact ⟨q, rfl⟩

/-- For a valid automaton, the reachable set is closed under transitions on
alphabet symbols, which are moreover always defined on it. -/
theorem valid_alc_trans (afd : AFD String) (hv : (validar_afd afd).1 = true)
    {p s : String} (hp : p ∈ encontrarEstadosAlcancaveis afd) (hs : s ∈ afd.alfabeto) :
    ∃ q, afd.trans p s = some q ∧ q ∈ encontrarEstadosAlcancaveis afd := by
  obtain ⟨q, hq⟩ := valid_complete afd hv (alc_subset_estados afd hp) hs
  refine ⟨q, hq, alc_closed afd p q hp ⟨(valid_trans afd hv hq).2, s, hs, hq⟩⟩

theorem valid_alc_nonempty (afd : AFD String) (hv : (validar_afd afd).1 = true) :
    encontrarEstadosAlcancaveis afd ≠ ∅ := by
  intro h
  exact (alc_empty_iff afd).1 h (valid_inicial afd hv)

end Validade

section Equivalencia

theorem deltaStarO_cons {σ : Type} [DecidableEq σ] (afd : AFD σ) (p : σ) (s : String)
    (w : List String) :
    deltaStarO afd p (s :: w) = (afd.trans p s).bind fun q => deltaStarO afd q w := rfl

theorem aceitaDesde_nil {σ : Type} [DecidableEq σ] (afd : AFD σ) (p : σ) :
    aceitaDesde afd p [] = decide (p ∈ afd.finais) := rfl

theorem aceitaDesde_cons_some {σ : Type} [DecidableEq σ] {afd : AFD σ} {p q : σ}
    {s : String} (h : afd.trans p s = some q) (w : List String) :
    aceitaDesde afd p (s :: w) = aceitaDesde afd q w := by
  unfold aceitaDesde
  rw [deltaStarO_cons, h, Option.some_bind]

theorem aceitaDesde_cons_none {σ : Type} [DecidableEq σ] {afd : AFD σ} {p : σ}
    {s : String} (h : afd.trans p s = none) (w : List String) :
    aceitaDesde afd p (s :: w) = false := by
  unfold aceitaDesde
  rw [deltaStarO_cons, h, Option.none_bind]

theorem mem_wordsLe (A : List String) :
    ∀ (n : Nat) (w : List String),
      w ∈ wordsLe A n ↔ w.length ≤ n ∧ ∀ s ∈ w, s ∈ A := by
  intro n
  induction n with
  | zero =>
    intro w
    constructor
    · intro h
      rw [show w = [] from List.mem_singleton.1 h]
      exact ⟨Nat.le_refl 0, fun s hs => absurd hs (List.not_mem_nil s)⟩
    · rintro ⟨hlen, _⟩
      rw [List.length_eq_zero.1 (Nat.le_zero.1 hlen)]
      exact List.mem_singleton_self []
  | succ n ih =>
    intro w
    unfold wordsLe
    rw [List.mem_cons, List.mem_flatMap]
    constructor
    · rintro (rfl | ⟨s, hs, hw⟩)
      · exact ⟨Nat.zero_le _, fun s hs => absurd hs (List.not_mem_nil s)⟩
      · rw [List.mem_map] at hw
        obtain ⟨w', hw', rfl⟩ := hw
        obtain ⟨hlen, hsym⟩ := (ih w').1 hw'
        refine ⟨by simpa using hlen, ?_⟩
        intro x hx
        rcases List.mem_cons.1 hx with rfl | hx
        · exact hs
        · exact hsym x hx
    · rintro ⟨hlen, hsym⟩
      cases w with
      | nil => exact Or.inl rfl
      | cons s w' =>
        refine Or.inr ⟨s, hsym s (List.mem_cons_self s w'), ?_⟩
        rw [List.mem_map]
        refine ⟨w', (ih w').2 ⟨?_, fun x hx => hsym x (List.mem_cons_of_mem s hx)⟩, rfl⟩
        simpa using hlen

theorem eqvAte_refl (afd : AFD String) (n : Nat) (p : String) : eqvAte afd n p p :=
  fun _ _ => rfl

theorem eqvAte_symm {afd : AFD String} {n : Nat} {p q : String}
    (h : eqvAte afd n p q) : eqvAte afd n q p :=
  fun w hw => (h w hw).symm

theorem eqvAte_trans {afd : AFD String} {n : Nat} {p q r : String}
    (h1 : eqvAte afd n p q) (h2 : eqvAte afd n q r) : eqvAte afd n p r :=
  fun w hw => (h1 w hw).trans (h2 w hw)

theorem eqvAte_mono {afd : AFD String} {m n : Nat} (h : m ≤ n) {p q : String}
    (he : eqvAte afd n p q) : eqvAte afd m p q := by
  intro w hw
  obtain ⟨hlen, hsym⟩ := (mem_wordsLe _ m w).1 hw
  exact he w ((mem_wordsLe _ n w).2 ⟨le_trans hlen h, hsym⟩)

theorem eqvAte_zero_iff (afd : AFD String) (p q : String) :
    eqvAte afd 0 p q ↔ (p ∈ afd.finais ↔ q ∈ afd.finais) := by
  constructor
  · intro h
    have h0 := h [] ((mem_wordsLe _ 0 []).2
      ⟨Nat.le_refl 0, fun s hs => absurd hs (List.not_mem_nil s)⟩)
    rw [aceitaDesde_nil, aceitaDesde_nil, decide_eq_decide] at h0
    exact h0
  · intro h w hw
    obtain ⟨hlen, _⟩ := (mem_wordsLe _ 0 w).1 hw
    rw [List.length_eq_zero.1 (Nat.le_zero.1 hlen)]
    rw [aceitaDesde_nil, aceitaDesde_nil, decide_eq_decide]
    exact h

theorem eqvAte_succ_iff (afd : AFD String) (hv : (validar_afd afd).1 = true)
    (p q : String) (hp : p ∈ afd.estados) (hq : q ∈ afd.estados) (n : Nat) :
    eqvAte afd (n + 1) p q ↔
      (p ∈ afd.finais ↔ q ∈ afd.finais) ∧
      ∀ s ∈ afd.alfabeto, ∀ a b, afd.trans p s = some a → afd.trans q s = some b →
        eqvAte afd n a b := by
  constructor
  · intro h
    refine ⟨(eqvAte_zero_iff afd p q).1 (eqvAte_mono (Nat.zero_le _) h), ?_⟩
    intro s hs a b ha hb w hw
    obtain ⟨hlen, hsym⟩ := (mem_wordsLe _ n w).1 hw
    have hw2 : (s :: w) ∈ wordsLe (sortFS afd.alfabeto) (n + 1) := by
      refine (mem_wordsLe _ _ _).2 ⟨by simpa using hlen, ?_⟩
      intro x hx
      rcases List.mem_cons.1 hx with rfl | hx
      · exact (mem_sortFS afd.alfabeto x).2 hs
      · exact hsym x hx
    have := h (s :: w) hw2
    rwa [aceitaDesde_cons_some ha, aceitaDesde_cons_some hb] at this
  · rintro ⟨h0, hstep⟩ w hw
    obtain ⟨hlen, hsym⟩ := (mem_wordsLe _ _ w).1 hw
    cases w with
    | nil =>
      rw [aceitaDesde_nil, aceitaDesde_nil, decide_eq_decide]
      exact h0
    | cons s w' =>
      have hs : s ∈ afd.alfabeto :=
        (mem_sortFS afd.alfabeto s).1 (hsym s (List.mem_cons_self s w'))
      obtain ⟨a, ha⟩ := valid_complete afd hv hp hs
      obtain ⟨b, hb⟩ := valid_complete afd hv hq hs
      rw [aceitaDesde_cons_some ha, aceitaDesde_cons_some hb]
      refine hstep s hs a b ha hb w' ((mem_wordsLe _ n w').2 ⟨?_, ?_⟩)
      · simpa using hlen
      · exact fun x hx => hsym x (List.mem_cons_of_mem s hx)

theorem not_eqvAte_succ (afd : AFD String) (hv : (validar_afd afd).1 = true)
    {p q : String} (hp : p ∈ afd.estados) (hq : q ∈ afd.estados) (n : Nat)
    (h : ¬eqvAte afd (n + 1) p q) :
    ¬eqvAte afd 0 p q ∨
      ∃ s ∈ afd.alfabeto, ∃ a b, afd.trans p s = some a ∧ afd.trans q s = some b ∧
        ¬eqvAte afd n a b := by
  by_cases h0 : eqvAte afd 0 p q
  · refine Or.inr ?_
    by_contra hno
    push_neg at hno
    exact h ((eqvAte_succ_iff afd hv p q hp hq n).2
      ⟨(eqvAte_zero_iff afd p q).1 h0, fun s hs a b ha hb => hno s hs a b ha hb⟩)
  · exact Or.inl h0

theorem mem_marcacaoInicial (afd : AFD String) (R : Finset String) (t : Finset String) :
    t ∈ marcacaoInicial afd R ↔
      ∃ p q, p ∈ afd.finais ∩ R ∧ q ∈ R \ (afd.finais ∩ R) ∧ p ≠ q ∧ t = pairFS p q := by
  unfold marcacaoInicial
  rw [Finset.mem_image]
  constructor
  · rintro ⟨pq, hpq, rfl⟩
    rw [Finset.mem_filter, Finset.mem_product] at hpq
    exact ⟨pq.1, pq.2, hpq.1.1, hpq.1.2, hpq.2, rfl⟩
  · rintro ⟨p, q, hp, hq, hne, rfl⟩
    exact ⟨(p, q), Finset.mem_filter.2 ⟨Finset.mem_product.2 ⟨hp, hq⟩, hne⟩, rfl⟩

/-- Level characterization of the marking (valid automata): after `k` passes
a pair is marked iff its two states are distinct reachable states that are
distinguished by some word of length at most `k`. -/
theorem marcadosAte_iff (afd : AFD String) (hv : (validar_afd afd).1 = true) :
    ∀ (k : Nat) (t : Finset String),
      t ∈ marcadosAte afd (encontrarEstadosAlcancaveis afd) k ↔
        ∃ p q, p ∈ encontrarEstadosAlcancaveis afd ∧
          q ∈ encontrarEstadosAlcancaveis afd ∧
          p ≠ q ∧ t = pairFS p q ∧ ¬eqvAte afd k p q := by
  set R := encontrarEstadosAlcancaveis afd with hR
  intro k
  induction k with
  | zero =>
    intro t
    show t ∈ marcacaoInicial afd R ↔ _
    rw [mem_marcacaoInicial]
    constructor
    · rintro ⟨p, q, hp, hq, hne, rfl⟩
      have hpf : p ∈ afd.finais := (Finset.mem_inter.1 hp).1
      have hpR : p ∈ R := (Finset.mem_inter.1 hp).2
      have hqR : q ∈ R := (Finset.mem_sdiff.1 hq).1
      have hqnf : q ∉ afd.finais := fun hf =>
        (Finset.mem_sdiff.1 hq).2 (Finset.mem_inter.2 ⟨hf, hqR⟩)
      refine ⟨p, q, hpR, hqR, hne, rfl, ?_⟩
      intro he
      exact hqnf (((eqvAte_zero_iff afd p q).1 he).1 hpf)
    · rintro ⟨p, q, hpR, hqR, hne, rfl, hne0⟩
      have hiff : ¬(p ∈ afd.finais ↔ q ∈ afd.finais) := fun h =>
        hne0 ((eqvAte_zero_iff afd p q).2 h)
      by_cases hpf : p ∈ afd.finais
      · by_cases hqf : q ∈ afd.finais
        · exact absurd (Iff.intro (fun _ => hqf) (fun _ => hpf)) hiff
        · exact ⟨p, q, Finset.mem_inter.2 ⟨hpf, hpR⟩,
            Finset.mem_sdiff.2 ⟨hqR, fun hm => hqf (Finset.mem_inter.1 hm).1⟩, hne, rfl⟩
      · by_cases hqf : q ∈ afd.finais
        · exact ⟨q, p, Finset.mem_inter.2 ⟨hqf, hqR⟩,
            Finset.mem_sdiff.2 ⟨hpR, fun hm => hpf (Finset.mem_inter.1 hm).1⟩,
            hne.symm, pairFS_comm p q⟩
        · exact absurd (Iff.intro (fun h => absurd h hpf) (fun h => absurd h hqf)) hiff
  | succ n ih =>
    intro t
    show t ∈ marcadosAte afd R n ∪ novasMarcacoes afd R (marcadosAte afd R n) ↔ _
    rw [Finset.mem_union]
    constructor
    · rintro (h | h)
      · obtain ⟨p, q, hp, hq, hne, rfl, hneq⟩ := (ih _).1 h
        exact ⟨p, q, hp, hq, hne, rfl,
          fun he => hneq (eqvAte_mono (Nat.le_succ n) he)⟩
      · obtain ⟨p, q, hp, hq, hlt, rfl, hnm, s, hs, a, b, ha, hb, hab, hmk⟩ :=
          (mem_novas_iff _ _ _ _).1 h
        obtain ⟨p', q', hp', hq', hne', hpair', hneq'⟩ := (ih _).1 hmk
        have hab2 : ¬eqvAte afd n a b := by
          rcases pairFS_eq_pairFS hab hpair' with ⟨rfl, rfl⟩ | ⟨rfl, rfl⟩
          · exact hneq'
          · exact fun he => hneq' (eqvAte_symm he)
        refine ⟨p, q, hp, hq, fun h => strLt_irrefl p (h ▸ hlt), rfl, ?_⟩
        intro he
        exact hab2 (((eqvAte_succ_iff afd hv p q (alc_subset_estados afd hp)
          (alc_subset_estados afd hq) n).1 he).2 s hs a b ha hb)
    · rintro ⟨p, q, hp, hq, hne, rfl, hneq⟩
      rcases not_eqvAte_succ afd hv (alc_subset_estados afd hp)
          (alc_subset_estados afd hq) n hneq with h0 | ⟨s, hs, a, b, ha, hb, hneqn⟩
      · left
        exact (ih _).2 ⟨p, q, hp, hq, hne, rfl,
          fun he => h0 (eqvAte_mono (Nat.zero_le n) he)⟩
      · by_cases hin : pairFS p q ∈ marcadosAte afd R n
        · exact Or.inl hin
        · right
          have haR : a ∈ R := alc_closed afd p a hp ⟨(valid_trans afd hv ha).2, s, hs, ha⟩
          have hbR : b ∈ R := alc_closed afd q b hq ⟨(valid_trans afd hv hb).2, s, hs, hb⟩
          have habne : a ≠ b := fun heq => hneqn (heq ▸ eqvAte_refl afd n a)
          have hmk : pairFS a b ∈ marcadosAte afd R n :=
            (ih _).2 ⟨a, b, haR, hbR, habne, rfl, hneqn⟩
          rcases strLt_trichotomy p q with hlt | heq | hlt
          · exact (mem_novas_iff _ _ _ _).2
              ⟨p, q, hp, hq, hlt, rfl, hin, s, hs, a, b, ha, hb, habne, hmk⟩
          · exact absurd heq hne
          · exact (mem_novas_iff _ _ _ _).2
              ⟨q, p, hq, hp, hlt, pairFS_comm p q, hin, s, hs, b, a, hb, ha,
                habne.symm, pairFS_comm a b ▸ hmk⟩

theorem marcadosAte_subset (afd : AFD String) (R : Finset String) (k : Nat) :
    marcadosAte afd R k ⊆ allPairsFS R := by
  induction k with
  | zero => exact marcacaoInicial_subset afd R
  | succ n ih =>
    exact Finset.union_subset ih (novas_subset_allPairs afd R _)

theorem marcadosAte_mono (afd : AFD String) (R : Finset String) {k j : Nat}
    (h : k ≤ j) : marcadosAte afd R k ⊆ marcadosAte afd R j := by
  induction j with
  | zero =>
    rw [Nat.le_zero.1 h]
  | succ n ih =>
    rcases Nat.le_succ_iff.1 h with h | rfl
    · exact subset_trans (ih h) Finset.subset_union_left
    · exact subset_rfl

theorem marcadosAte_stab (afd : AFD String) (R : Finset String) {K : Nat}
    (h : novasMarcacoes afd R (marcadosAte afd R K) = ∅) :
    ∀ j, marcadosAte afd R (K + j) = marcadosAte afd R K := by
  intro j
  induction j with
  | zero => rfl
  | succ n ih =>
    have hdef : marcadosAte afd R (K + (n + 1)) =
        marcadosAte afd R (K + n) ∪
          novasMarcacoes afd R (marcadosAte afd R (K + n)) := rfl
    rw [hdef, ih, h, Finset.union_empty]

theorem loop_final_level (afd : AFD String) (R : Finset String) :
    ∀ (fuel passo k : Nat), ∃ j,
      (loopMarcacao afd R fuel passo (marcadosAte afd R k)).2 =
        marcadosAte afd R (k + j) := by
  intro fuel
  induction fuel with
  | zero =>
    intro passo k
    exact ⟨0, rfl⟩
  | succ n ih =>
    intro passo k
    rw [loopMarcacao_succ]
    split
    · exact ⟨0, rfl⟩
    · have heq : marcadosAte afd R k ∪ novasMarcacoes afd R (marcadosAte afd R k) =
        marcadosAte afd R (k + 1) := rfl
      simp only [heq]
      obtain ⟨j, hj⟩ := ih (passo + 1) (k + 1)
      refine ⟨j + 1, ?_⟩
      rw [hj]
      congr 1
      omega

/-- The final marked set of the loop is the marking at some level with no
further newly marked pairs. -/
theorem marcadosFinais_spec (afd : AFD String) :
    ∃ K, marcadosFinais afd =
        marcadosAte afd (encontrarEstadosAlcancaveis afd) K ∧
      novasMarcacoes afd (encontrarEstadosAlcancaveis afd)
        (marcadosAte afd (encontrarEstadosAlcancaveis afd) K) = ∅ := by
  obtain ⟨j, hj⟩ := loop_final_level afd (encontrarEstadosAlcancaveis afd)
    (loopFuel afd) 1 0
  have hfix := loopMarcacao_fix afd (encontrarEstadosAlcancaveis afd) (loopFuel afd) 1
    (marcacaoInicial afd (encontrarEstadosAlcancaveis afd))
    (marcacaoInicial_subset afd (encontrarEstadosAlcancaveis afd))
    (by unfold loopFuel; omega)
  refine ⟨j, ?_, ?_⟩
  · unfold marcadosFinais
    rw [show marcacaoInicial afd (encontrarEstadosAlcancaveis afd) =
        marcadosAte afd (encontrarEstadosAlcancaveis afd) 0 from rfl, hj]
    congr 1
    omega
  · rw [show marcacaoInicial afd (encontrarEstadosAlcancaveis afd) =
        marcadosAte afd (encontrarEstadosAlcancaveis afd) 0 from rfl, hj,
      show (0 + j) = j from by omega] at hfix
    exact hfix

theorem indist_step {afd : AFD String} {p q a b s : String} (hs : s ∈ afd.alfabeto)
    (ha : afd.trans p s = some a) (hb : afd.trans q s = some b)
    (h : Indist afd p q) : Indist afd a b := by
  intro w hw
  have := h (s :: w) (by
    intro x hx
    rcases List.mem_cons.1 hx with rfl | hx
    · exact hs
    · exact hw x hx)
  rwa [aceitaDesde_cons_some ha, aceitaDesde_cons_some hb] at this

theorem indist_refl (afd : AFD String) (p : String) : Indist afd p p := fun _ _ => rfl

theorem indist_symm {afd : AFD String} {p q : String} (h : Indist afd p q) :
    Indist afd q p := fun w hw => (h w hw).symm

theorem indist_trans {afd : AFD String} {p q r : String} (h1 : Indist afd p q)
    (h2 : Indist afd q r) : Indist afd p r := fun w hw => (h1 w hw).trans (h2 w hw)

theorem indist_finais {afd : AFD String} {p q : String} (h : Indist afd p q) :
    p ∈ afd.finais ↔ q ∈ afd.finais := by
  have h0 := h [] (fun s hs => absurd hs (List.not_mem_nil s))
  rw [aceitaDesde_nil, aceitaDesde_nil, decide_eq_decide] at h0
  exact h0

/-- Fixed-point characterization of the final marked set (valid automata):
a pair of distinct reachable states is marked at the fixed point iff the two
states are distinguishable by some word over the alphabet. -/
theorem mem_marcadosFinais_iff (afd : AFD String) (hv : (validar_afd afd).1 = true)
    {p q : String} (hp : p ∈ encontrarEstadosAlcancaveis afd)
    (hq : q ∈ encontrarEstadosAlcancaveis afd) (hne : p ≠ q) :
    pairFS p q ∈ marcadosFinais afd ↔ ¬Indist afd p q := by
  set R := encontrarEstadosAlcancaveis afd
  obtain ⟨K, hK, hfix⟩ := marcadosFinais_spec afd
  constructor
  · intro h
    rw [hK] at h
    obtain ⟨p', q', _, _, hne', hpair, hneq⟩ := (marcadosAte_iff afd hv K _).1 h
    have hKpq : ¬eqvAte afd K p q := by
      rcases pairFS_eq_pairFS hne hpair with ⟨rfl, rfl⟩ | ⟨rfl, rfl⟩
      · exact hneq
      · exact fun he => hneq (eqvAte_symm he)
    intro hind
    apply hKpq
    intro w hw
    obtain ⟨_, hsym⟩ := (mem_wordsLe _ K w).1 hw
    exact hind w (fun x hx => (mem_sortFS _ x).1 (hsym x hx))
  · intro hind
    have hex : ∃ w, (∀ s ∈ w, s ∈ afd.alfabeto) ∧
        aceitaDesde afd p w ≠ aceitaDesde afd q w := by
      by_contra hcon
      push_neg at hcon
      exact hind fun w hw => hcon w hw
    obtain ⟨w, hsym, hdiff⟩ := hex
    have hne2 : ¬eqvAte afd w.length p q := fun he =>
      hdiff (he w ((mem_wordsLe _ _ _).2
        ⟨le_refl _, fun s hs => (mem_sortFS _ s).2 (hsym s hs)⟩))
    have hmem : pairFS p q ∈ marcadosAte afd R w.length :=
      (marcadosAte_iff afd hv _ _).2 ⟨p, q, hp, hq, hne, rfl, hne2⟩
    rw [hK]
    rcases le_total w.length K with hle | hle
    · exact marcadosAte_mono afd R hle hmem
    · have hstab := marcadosAte_stab afd R hfix (w.length - K)
      rw [show K + (w.length - K) = w.length from by omega] at hstab
      rw [← hstab]
      exact hmem

end Equivalencia

section DSULemmas

theorem iterParent_succ (f : String → String) (n : Nat) (p : String) :
    iterParent f (n + 1) p = iterParent f n (f p) := rfl

theorem iterParent_root_stable (f : String → String) {r : String} (hr : f r = r) :
    ∀ n, iterParent f n r = r := by
  intro n
  induction n with
  | zero => rfl
  | succ n ih =>
    rw [iterParent_succ, hr, ih]

/-- With enough fuel, `dsuFind` returns the first root on the parent chain:
any witness `k` with a root at `iterParent f k p` determines the result. -/
theorem dsuFind_eq (f : String → String) :
    ∀ (k : Nat) (p : String), f (iterParent f k p) = iterParent f k p →
      ∀ m, k ≤ m → dsuFind m f p = iterParent f k p := by
  intro k
  induction k with
  | zero =>
    intro p hroot m _
    have hr : f p = p := hroot
    cases m with
    | zero => rfl
    | succ m' =>
      show (if f p = p then p else dsuFind m' f (f p)) = p
      rw [if_pos hr]
  | succ k ih =>
    intro p hroot m hm
    rcases m with _ | m'
    · omega
    by_cases hfp : f p = p
    · have hall : iterParent f (k + 1) p = p := iterParent_root_stable f hfp (k + 1)
      rw [hall]
      show (if f p = p then p else dsuFind m' f (f p)) = p
      rw [if_pos hfp]
    · show (if f p = p then p else dsuFind m' f (f p)) = iterParent f (k + 1) p
      rw [if_neg hfp, iterParent_succ]
      exact ih (f p) (by rw [← iterParent_succ]; exact hroot) m' (by omega)

theorem dsuFind_root (f : String → String) {N : Nat} (hN : Enraizada f N)
    (p : String) (m : Nat) (hm : N ≤ m) :
    f (dsuFind m f p) = dsuFind m f p ∧
      ∃ k ≤ N, dsuFind m f p = iterParent f k p := by
  obtain ⟨k, hk, hroot⟩ := hN p
  have heq := dsuFind_eq f k p hroot m (le_trans hk hm)
  exact ⟨by rw [heq]; exact hroot, k, hk, heq⟩

theorem enraizada_id : ∀ N, Enraizada id N := by
  intro N p
  exact ⟨0, Nat.zero_le N, rfl⟩

/-- Chain transfer after a union update `update f r1 r2` of two distinct
roots: a chain whose root is not `r1` is unchanged; a chain with root `r1`
now continues one step further to the root `r2`. -/
theorem update_chain (f : String → String) (r1 r2 : String) (hr1 : f r1 = r1)
    (hr2 : f r2 = r2) (hne : r1 ≠ r2) :
    ∀ (k : Nat) (p : String), f (iterParent f k p) = iterParent f k p →
      (iterParent f k p ≠ r1 →
        ∃ k' ≤ k, iterParent (Function.update f r1 r2) k' p = iterParent f k p ∧
          Function.update f r1 r2 (iterParent f k p) = iterParent f k p) ∧
      (iterParent f k p = r1 →
        ∃ k' ≤ k + 1, iterParent (Function.update f r1 r2) k' p = r2 ∧
          Function.update f r1 r2 r2 = r2) := by
  have hupd2 : Function.update f r1 r2 r2 = r2 := by
    rw [Function.update_noteq (Ne.symm hne), hr2]
  intro k
  induction k with
  | zero =>
    intro p hroot
    constructor
    · intro hne1
      exact ⟨0, Nat.le_refl 0, rfl, by rw [Function.update_noteq hne1]; exact hroot⟩
    · intro h1
      have hp : p = r1 := h1
      refine ⟨1, by omega, ?_, hupd2⟩
      show Function.update f r1 r2 p = r2
      rw [hp, Function.update_same]
  | succ k ih =>
    intro p hroot
    by_cases hp1 : p = r1
    · have hfp : f p = p := by rw [hp1, hr1]
      have hstab : iterParent f (k + 1) p = p := iterParent_root_stable f hfp (k + 1)
      constructor
      · intro hne1
        rw [hstab] at hne1
        exact absurd hp1 hne1
      · intro _
        refine ⟨1, by omega, ?_, hupd2⟩
        show Function.update f r1 r2 p = r2
        rw [hp1, Function.update_same]
    · have hstep : iterParent f (k + 1) p = iterParent f k (f p) := rfl
      have hroot' : f (iterParent f k (f p)) = iterParent f k (f p) := by
        rw [← hstep]; exact hroot
      have hupdp : Function.update f r1 r2 p = f p := Function.update_noteq hp1 r2 f
      constructor
      · intro hne1
        rw [hstep] at hne1
        obtain ⟨k', hk', hiter, hupd⟩ := (ih (f p) hroot').1 hne1
        refine ⟨k' + 1, by omega, ?_, by rw [hstep]; exact hupd⟩
        rw [hstep]
        show iterParent (Function.update f r1 r2) k' (Function.update f r1 r2 p) = _
        rw [hupdp]
        exact hiter
      · intro h1
        rw [hstep] at h1
        obtain ⟨k', hk', hiter, _⟩ := (ih (f p) hroot').2 h1
        refine ⟨k' + 1, by omega, ?_, hupd2⟩
        show iterParent (Function.update f r1 r2) k' (Function.update f r1 r2 p) = r2
        rw [hupdp]
        exact hiter

theorem dsuUnion_def (m : Nat) (f : String → String) (a b : String) :
    dsuUnion m f a b =
      if dsuFind m f a = dsuFind m f b then f
      else Function.update f (dsuFind m f a) (dsuFind m f b) := rfl

/-- A union preserves rootedness, with the chain bound growing by one. -/
theorem dsuUnion_enraizada (f : String → String) {N : Nat} (hN : Enraizada f N)
    (a b : String) (m : Nat) (hm : N ≤ m) :
    Enraizada (dsuUnion m f a b) (N + 1) := by
  rw [dsuUnion_def]
  obtain ⟨hra, _⟩ := dsuFind_root f hN a m hm
  obtain ⟨hrb, _⟩ := dsuFind_root f hN b m hm
  split
  · intro p
    obtain ⟨k, hk, hroot⟩ := hN p
    exact ⟨k, by omega, hroot⟩
  · rename_i hne
    intro p
    obtain ⟨k, hk, hroot⟩ := hN p
    by_cases h1 : iterParent f k p = dsuFind m f a
    · obtain ⟨k', hk', hiter, hupd⟩ :=
        (update_chain f (dsuFind m f a) (dsuFind m f b) hra hrb hne k p hroot).2 h1
      refine ⟨k', by omega, ?_⟩
      rw [hiter]
      exact hupd
    · obtain ⟨k', hk', hiter, hupd⟩ :=
        (update_chain f (dsuFind m f a) (dsuFind m f b) hra hrb hne k p hroot).1 h1
      refine ⟨k', by omega, ?_⟩
      rw [hiter]
      exact hupd

/-- The find results after a union: the old root of `a` is redirected to the
old root of `b`, all other roots are unchanged. -/
theorem dsuUnion_find (f : String → String) {N : Nat} (hN : Enraizada f N)
    (a b : String) (m m' : Nat) (hm : N ≤ m) (hm' : N + 1 ≤ m') (p : String) :
    dsuFind m' (dsuUnion m f a b) p =
      if dsuFind m f p = dsuFind m f a then dsuFind m f b else dsuFind m f p := by
  obtain ⟨hra, _⟩ := dsuFind_root f hN a m hm
  obtain ⟨hrb, _⟩ := dsuFind_root f hN b m hm
  obtain ⟨hrp, k, hk, hkp⟩ := dsuFind_root f hN p m hm
  rw [dsuUnion_def]
  split
  · rename_i heq
    have hfind : dsuFind m' f p = dsuFind m f p := by
      rw [hkp]
      exact dsuFind_eq f k p (by rw [← hkp]; exact hrp) m' (by omega)
    rw [hfind]
    split
    · rename_i h2
      rw [h2, heq]
    · rfl
  · rename_i hne
    have hrootk : f (iterParent f k p) = iterParent f k p := by
      rw [← hkp]; exact hrp
    by_cases h1 : dsuFind m f p = dsuFind m f a
    · rw [if_pos h1]
      obtain ⟨k', hk', hiter, hupd⟩ :=
        (update_chain f (dsuFind m f a) (dsuFind m f b) hra hrb hne k p hrootk).2
          (by rw [← hkp]; exact h1)
      have := dsuFind_eq (Function.update f (dsuFind m f a) (dsuFind m f b)) k' p
        (by rw [hiter]; exact hupd) m' (by omega)
      rw [this, hiter]
    · rw [if_neg h1]
      obtain ⟨k', hk', hiter, hupd⟩ :=
        (update_chain f (dsuFind m f a) (dsuFind m f b) hra hrb hne k p hrootk).1
          (by rw [← hkp]; exact h1)
      have := dsuFind_eq (Function.update f (dsuFind m f a) (dsuFind m f b)) k' p
        (by rw [hiter]; exact hupd) m' (by omega)
      rw [this, hiter, ← hkp]

theorem eqvGen_subset {α : Type} {r s : α → α → Prop}
    (h : ∀ a b, r a b → Relation.EqvGen s a b) :
    ∀ a b, Relation.EqvGen r a b → Relation.EqvGen s a b := by
  intro a b hab
  induction hab with
  | rel x y hxy => exact h x y hxy
  | refl x => exact Relation.EqvGen.refl x
  | symm x y _ ih => exact Relation.EqvGen.symm x y ih
  | trans x y z _ _ ih1 ih2 => exact Relation.EqvGen.trans x y z ih1 ih2

theorem dsuFold_enraizada :
    ∀ (L : List (String × String)) (f : String → String) (N m : Nat),
      Enraizada f N → N + L.length ≤ m → Enraizada (dsuFold m L f) (N + L.length) := by
  intro L
  induction L with
  | nil =>
    intro f N m hN _
    exact hN
  | cons ab L' ih =>
    intro f N m hN hm
    have h1 : Enraizada (dsuUnion m f ab.1 ab.2) (N + 1) :=
      dsuUnion_enraizada f hN ab.1 ab.2 m (by simp at hm; omega)
    have h2 := ih (dsuUnion m f ab.1 ab.2) (N + 1) m h1 (by simp at hm ⊢; omega)
    have hlen : N + (ab :: L').length = N + 1 + L'.length := by simp; omega
    rw [hlen]
    show Enraizada (dsuFold m L' (dsuUnion m f ab.1 ab.2)) _
    exact h2

/-- Same-root characterization of the fold of unions: two elements share a
root after all unions exactly when they are related by the equivalence
closure of the initial same-root relation together with the union'd pairs. -/
theorem dsuFold_sameRoot :
    ∀ (L : List (String × String)) (f : String → String) (N m : Nat),
      Enraizada f N → N + L.length ≤ m →
      ∀ p q, dsuFind m (dsuFold m L f) p = dsuFind m (dsuFold m L f) q ↔
        Relation.EqvGen (fun x y => dsuFind m f x = dsuFind m f y ∨ (x, y) ∈ L) p q := by
  intro L
  induction L with
  | nil =>
    intro f N m hN hm p q
    show dsuFind m f p = dsuFind m f q ↔ _
    constructor
    · intro h
      exact Relation.EqvGen.rel p q (Or.inl h)
    · intro h
      induction h with
      | rel x y hxy =>
        rcases hxy with h | h
        · exact h
        · exact absurd h (List.not_mem_nil _)
      | refl x => rfl
      | symm x y _ ih => exact ih.symm
      | trans x y z _ _ ih1 ih2 => exact ih1.trans ih2
  | cons ab L' ih =>
    intro f N m hN hm p q
    have hmN : N ≤ m := by simp at hm; omega
    have h1 : Enraizada (dsuUnion m f ab.1 ab.2) (N + 1) :=
      dsuUnion_enraizada f hN ab.1 ab.2 m hmN
    have hm1 : N + 1 + L'.length ≤ m := by simp at hm; omega
    have hmain := ih (dsuUnion m f ab.1 ab.2) (N + 1) m h1 hm1 p q
    show dsuFind m (dsuFold m L' (dsuUnion m f ab.1 ab.2)) p =
        dsuFind m (dsuFold m L' (dsuUnion m f ab.1 ab.2)) q ↔
      Relation.EqvGen (fun x y => dsuFind m f x = dsuFind m f y ∨ (x, y) ∈ ab :: L') p q
    rw [hmain]
    have hfind : ∀ x, dsuFind m (dsuUnion m f ab.1 ab.2) x =
        if dsuFind m f x = dsuFind m f ab.1 then dsuFind m f ab.2 else dsuFind m f x :=
      fun x => dsuUnion_find f hN ab.1 ab.2 m m hmN (by omega) x
    constructor
    · refine eqvGen_subset ?_ p q
      intro x y hxy
      rcases hxy with hxy | hxy
      · rw [hfind x, hfind y] at hxy
        by_cases hx : dsuFind m f x = dsuFind m f ab.1
        · by_cases hy : dsuFind m f y = dsuFind m f ab.1
          · exact Relation.EqvGen.trans x ab.1 y
              (Relation.EqvGen.rel x ab.1 (Or.inl hx))
              (Relation.EqvGen.symm y ab.1 (Relation.EqvGen.rel y ab.1 (Or.inl hy)))
          · rw [if_pos hx, if_neg hy] at hxy
            refine Relation.EqvGen.trans x ab.1 y
              (Relation.EqvGen.rel x ab.1 (Or.inl hx)) ?_
            refine Relation.EqvGen.trans ab.1 ab.2 y
              (Relation.EqvGen.rel ab.1 ab.2 (Or.inr (List.mem_cons_self ab L'))) ?_
            exact Relation.EqvGen.symm y ab.2 (Relation.EqvGen.rel y ab.2 (Or.inl hxy.symm))
        · by_cases hy : dsuFind m f y = dsuFind m f ab.1
          · rw [if_neg hx, if_pos hy] at hxy
            refine Relation.EqvGen.trans x ab.2 y
              (Relation.EqvGen.rel x ab.2 (Or.inl hxy)) ?_
            refine Relation.EqvGen.symm y ab.2 ?_
            exact Relation.EqvGen.trans y ab.1 ab.2
              (Relation.EqvGen.rel y ab.1 (Or.inl hy))
              (Relation.EqvGen.rel ab.1 ab.2 (Or.inr (List.mem_cons_self ab L')))
          · rw [if_neg hx, if_neg hy] at hxy
            exact Relation.EqvGen.rel x y (Or.inl hxy)
      · exact Relation.EqvGen.rel x y (Or.inr (List.mem_cons_of_mem ab hxy))
    · refine eqvGen_subset ?_ p q
      intro x y hxy
      rcases hxy with hxy | hxy
      · refine Relation.EqvGen.rel x y (Or.inl ?_)
        rw [hfind x, hfind y, hxy]
      · rcases List.mem_cons.1 hxy with heq | hxy
        · refine Relation.EqvGen.rel x y (Or.inl ?_)
          rw [hfind x, hfind y]
          have hx : x = ab.1 := congrArg Prod.fst heq
          have hy : y = ab.2 := congrArg Prod.snd heq
          rw [hx, hy, if_pos rfl]
          split
          · rfl
          · rfl
        · exact Relation.EqvGen.rel x y (Or.inr hxy)

theorem mem_combin_of_sorted {l : List String} (hs : l.Sorted strLe) (hn : l.Nodup)
    (x y : String) :
    (x, y) ∈ combin l ↔ x ∈ l ∧ y ∈ l ∧ strLt x y := by
  induction l with
  | nil =>
    constructor
    · intro h; exact absurd h (List.not_mem_nil _)
    · rintro ⟨h, _⟩; exact absurd h (List.not_mem_nil _)
  | cons a l' ih =>
    have hs' : l'.Sorted strLe := hs.of_cons
    have hn' : l'.Nodup := hn.of_cons
    have hale : ∀ b ∈ l', strLe a b := fun b hb => (List.sorted_cons.1 hs).1 b hb
    have hanotin : a ∉ l' := (List.nodup_cons.1 hn).1
    show (x, y) ∈ (l'.map fun y => (a, y)) ++ combin l' ↔ _
    rw [List.mem_append, List.mem_map, ih hs' hn']
    constructor
    · rintro (⟨b, hb, heq⟩ | ⟨hx, hy, hlt⟩)
      · have hax : a = x := congrArg Prod.fst heq
        have hby : b = y := congrArg Prod.snd heq
        subst hax
        subst hby
        refine ⟨List.mem_cons_self a l', List.mem_cons_of_mem a hb, ?_⟩
        have hle := hale b hb
        have hne : a ≠ b := fun h => hanotin (h ▸ hb)
        refine lt_of_le_of_ne hle fun hdata => hne ?_
        cases a
        cases b
        exact congrArg String.mk hdata
      · exact ⟨List.mem_cons_of_mem a hx, List.mem_cons_of_mem a hy, hlt⟩
    · rintro ⟨hx, hy, hlt⟩
      rcases List.mem_cons.1 hx with hxa | hx
      · rcases List.mem_cons.1 hy with hya | hy
        · exfalso
          rw [hxa, hya] at hlt
          exact strLt_irrefl a hlt
        · left
          refine ⟨y, hy, ?_⟩
          rw [hxa]
      · rcases List.mem_cons.1 hy with hya | hy
        · exfalso
          have hle := hale x hx
          rw [hya] at hlt
          exact strLt_irrefl a (lt_of_le_of_lt hle hlt)
        · exact Or.inr ⟨hx, hy, hlt⟩

theorem mem_statePairs (afd : AFD String) (x y : String) :
    (x, y) ∈ statePairs afd ↔
      x ∈ encontrarEstadosAlcancaveis afd ∧ y ∈ encontrarEstadosAlcancaveis afd ∧
        strLt x y := by
  unfold statePairs
  rw [mem_combin_of_sorted (sortFS_sorted _) (sortFS_nodup _), mem_sortFS, mem_sortFS]

/-- The parent map built by `minimizar_afd` is rooted within the fuel every
`dsuFind` call receives. -/
theorem dsuFinal_enraizada (afd : AFD String) :
    Enraizada (dsuFinal afd) ((statePairs afd).length + 1) := by
  unfold dsuFinal
  have hlen := List.length_filter_le
    (fun pq => decide (pairFS pq.1 pq.2 ∉ marcadosFinais afd)) (statePairs afd)
  have h := dsuFold_enraizada
    ((statePairs afd).filter fun pq => pairFS pq.1 pq.2 ∉ marcadosFinais afd)
    id 0 (dsuFuel afd) (enraizada_id 0) (by unfold dsuFuel; omega)
  intro p
  obtain ⟨k, hk, hroot⟩ := h p
  exact ⟨k, by omega, hroot⟩

/-- Final disjoint-set roots agree exactly on the equivalence closure of the
unmarked candidate pairs. -/
theorem dsuRootFinal_iff (afd : AFD String) (p q : String) :
    dsuRootFinal afd p = dsuRootFinal afd q ↔
      Relation.EqvGen (fun x y => (x, y) ∈ (statePairs afd).filter
        fun pq => pairFS pq.1 pq.2 ∉ marcadosFinais afd) p q := by
  unfold dsuRootFinal dsuFinal
  have hlen := List.length_filter_le
    (fun pq => decide (pairFS pq.1 pq.2 ∉ marcadosFinais afd)) (statePairs afd)
  rw [dsuFold_sameRoot
    ((statePairs afd).filter fun pq => pairFS pq.1 pq.2 ∉ marcadosFinais afd)
    id 0 (dsuFuel afd) (enraizada_id 0) (by unfold dsuFuel; omega) p q]
  have hid : ∀ x, dsuFind (dsuFuel afd) id x = x := fun x =>
    dsuFind_eq id 0 x rfl (dsuFuel afd) (Nat.zero_le _)
  constructor
  · refine eqvGen_subset ?_ p q
    intro a b hab
    rcases hab with hab | hab
    · rw [hid a, hid b] at hab
      rw [hab]
      exact Relation.EqvGen.refl b
    · exact Relation.EqvGen.rel a b hab
  · refine eqvGen_subset ?_ p q
    intro a b hab
    exact Relation.EqvGen.rel a b (Or.inr hab)

/-- Core of claim C2 (valid automata): two distinct reachable states get the
same final root iff their pair is unmarked at the fixed point. -/
theorem sameRoot_iff_unmarked (afd : AFD String) (hv : (validar_afd afd).1 = true)
    {p q : String} (hp : p ∈ encontrarEstadosAlcancaveis afd)
    (hq : q ∈ encontrarEstadosAlcancaveis afd) (hne : p ≠ q) :
    dsuRootFinal afd p = dsuRootFinal afd q ↔
      pairFS p q ∉ marcadosFinais afd := by
  constructor
  · intro h
    have hind : Indist afd p q := by
      have hgen := (dsuRootFinal_iff afd p q).1 h
      clear h hne hp hq
      induction hgen with
      | rel x y hxy =>
        rw [List.mem_filter] at hxy
        obtain ⟨hxy, hnm⟩ := hxy
        obtain ⟨hx, hy, hlt⟩ := (mem_statePairs afd x y).1 hxy
        have hne2 : x ≠ y := fun h => strLt_irrefl x (h ▸ hlt)
        by_contra hni
        have : ¬¬Indist afd x y := by
          rw [← mem_marcadosFinais_iff afd hv hx hy hne2]
          simpa using hnm
        exact this hni
      | refl x => exact indist_refl afd x
      | symm x y _ ih => exact indist_symm ih
      | trans x y z _ _ ih1 ih2 => exact indist_trans ih1 ih2
    intro hmk
    exact (mem_marcadosFinais_iff afd hv hp hq hne).1 hmk hind
  · intro hnm
    rcases strLt_trichotomy p q with hlt | heq | hlt
    · exact (dsuRootFinal_iff afd p q).2 (Relation.EqvGen.rel p q
        (List.mem_filter.2 ⟨(mem_statePairs afd p q).2 ⟨hp, hq, hlt⟩, by simpa using hnm⟩))
    · exact absurd heq hne
    · refine (dsuRootFinal_iff afd p q).2 (Relation.EqvGen.symm q p
        (Relation.EqvGen.rel q p (List.mem_filter.2
          ⟨(mem_statePairs afd q p).2 ⟨hq, hp, hlt⟩, ?_⟩)))
      rw [show pairFS q p = pairFS p q from pairFS_comm q p]
      simpa using hnm

/-- Claim C2: for a valid input DFA and any unordered pair of distinct
reachable states, the two states share a disjoint-set root after all unions
iff their pair is not in the marked set at the fixed point of the marking
loop. -/
theorem claim_C2 (afd : AFD String) (hv : (validar_afd afd).1 = true)
    (p q : String) (hp : p ∈ encontrarEstadosAlcancaveis afd)
    (hq : q ∈ encontrarEstadosAlcancaveis afd) (hne : p ≠ q) :
    dsuRootFinal afd p = dsuRootFinal afd q ↔
      pairFS p q ∉ marcadosFinais afd :=
  sameRoot_iff_unmarked afd hv hp hq hne

/-- Witness for C2 at a concrete valid two-state automaton whose two states
are distinguishable. -/
theorem claim_C2_witness :
    dsuRootFinal ⟨{"a"}, {"A", "B"}, "A", {"B"},
        [("A", [("a", "B")]), ("B", [("a", "B")])]⟩ "A" ≠
      dsuRootFinal ⟨{"a"}, {"A", "B"}, "A", {"B"},
        [("A", [("a", "B")]), ("B", [("a", "B")])]⟩ "B" := fun h =>
  (claim_C2 ⟨{"a"}, {"A", "B"}, "A", {"B"}, [("A", [("a", "B")]), ("B", [("a", "B")])]⟩
    (by decide) "A" "B" (by decide) (by decide) (by decide)).1 h (by decide)

end DSULemmas

section MinAfdLemmas

theorem indist_of_sameRoot (afd : AFD String) (hv : (validar_afd afd).1 = true)
    {p q : String} (hp : p ∈ encontrarEstadosAlcancaveis afd)
    (hq : q ∈ encontrarEstadosAlcancaveis afd)
    (h : dsuRootFinal afd p = dsuRootFinal afd q) : Indist afd p q := by
  by_cases hne : p = q
  · rw [hne]; exact indist_refl afd q
  · by_contra hni
    exact (sameRoot_iff_unmarked afd hv hp hq hne).1 h
      ((mem_marcadosFinais_iff afd hv hp hq hne).2 hni)

theorem sameRoot_of_indist (afd : AFD String) (hv : (validar_afd afd).1 = true)
    {p q : String} (hp : p ∈ encontrarEstadosAlcancaveis afd)
    (hq : q ∈ encontrarEstadosAlcancaveis afd)
    (h : Indist afd p q) : dsuRootFinal afd p = dsuRootFinal afd q := by
  by_cases hne : p = q
  · rw [hne]
  · refine (sameRoot_iff_unmarked afd hv hp hq hne).2 ?_
    intro hmk
    exact (mem_marcadosFinais_iff afd hv hp hq hne).1 hmk h

theorem classeDe_eq_iff (afd : AFD String) {p q : String}
    (hp : p ∈ encontrarEstadosAlcancaveis afd) :
    classeDe afd p = classeDe afd q ↔ dsuRootFinal afd p = dsuRootFinal afd q := by
  constructor
  · intro h
    have hmem : p ∈ classeDe afd q := h ▸ self_mem_classeDe afd p hp
    exact ((mem_classeDe afd q p).1 hmem).2
  · intro h
    unfold classeDe
    rw [h]

theorem repClasse_mem {c : Finset String} (hc : c.Nonempty) : repClasse c ∈ c := by
  unfold repClasse
  have hne : sortFS c ≠ [] := by
    obtain ⟨x, hx⟩ := hc
    intro h
    have hmem := (mem_sortFS c x).2 hx
    rw [h] at hmem
    exact List.not_mem_nil x hmem
  rcases hl : sortFS c with _ | ⟨a, l⟩
  · exact absurd hl hne
  · have : a ∈ sortFS c := by rw [hl]; exact List.mem_cons_self a l
    exact (mem_sortFS c a).1 this

theorem alookup_map_self {κ β : Type} [DecidableEq κ] (g : κ → β) :
    ∀ (l : List κ), l.Nodup → ∀ c ∈ l,
      alookup c (l.map fun k => (k, g k)) = some (g c) := by
  intro l
  induction l with
  | nil => intro _ c hc; exact absurd hc (List.not_mem_nil c)
  | cons k tl ih =>
    intro hn c hc
    show (if k = c then some (g k) else alookup c (tl.map fun k => (k, g k))) = some (g c)
    rcases List.mem_cons.1 hc with heq | hc
    · rw [if_pos heq.symm, heq]
    · have hkc : k ≠ c := fun h => (List.nodup_cons.1 hn).1 (h ▸ hc)
      rw [if_neg hkc]
      exact ih (List.nodup_cons.1 hn).2 c hc

theorem alookup_filterMap_none {β : Type} (g : String → Option β) :
    ∀ (l : List String) (s : String), s ∉ l →
      alookup s (l.filterMap fun x => (g x).map fun v => (x, v)) = none := by
  intro l
  induction l with
  | nil => intro s _; rfl
  | cons a tl ih =>
    intro s hs
    have hsa : s ≠ a := fun h => hs (h ▸ List.mem_cons_self a tl)
    have hstl : s ∉ tl := fun h => hs (List.mem_cons_of_mem a h)
    rcases hga : g a with _ | v
    · rw [@List.filterMap_cons_none String (String × β)
        (fun x => (g x).map fun v => (x, v)) a tl (by show Option.map (fun v => (a, v)) (g a) = none; rw [hga]; rfl)]
      exact ih s hstl
    · rw [@List.filterMap_cons_some String (String × β)
        (fun x => (g x).map fun v => (x, v)) a tl (a, v) (by show Option.map (fun v => (a, v)) (g a) = some (a, v); rw [hga]; rfl)]
      show (if a = s then some (a, v).2 else _) = none
      rw [if_neg (Ne.symm hsa)]
      exact ih s hstl

theorem alookup_filterMap_some {β : Type} (g : String → Option β) :
    ∀ (l : List String), l.Nodup → ∀ s ∈ l,
      alookup s (l.filterMap fun x => (g x).map fun v => (x, v)) = g s := by
  intro l
  induction l with
  | nil => intro _ s hs; exact absurd hs (List.not_mem_nil s)
  | cons a tl ih =>
    intro hn s hs
    rcases List.mem_cons.1 hs with heq | hs
    · rcases hga : g a with _ | v
      · rw [@List.filterMap_cons_none String (String × β)
          (fun x => (g x).map fun v => (x, v)) a tl (by show Option.map (fun v => (a, v)) (g a) = none; rw [hga]; rfl)]
        rw [heq, hga]
        exact alookup_filterMap_none g tl a (List.nodup_cons.1 hn).1
      · rw [@List.filterMap_cons_some String (String × β)
          (fun x => (g x).map fun v => (x, v)) a tl (a, v) (by show Option.map (fun v => (a, v)) (g a) = some (a, v); rw [hga]; rfl)]
        show (if a = s then some (a, v).2 else _) = g s
        rw [if_pos heq.symm, heq, hga]
    · have hsa : a ≠ s := fun h => (List.nodup_cons.1 hn).1 (h ▸ hs)
      rcases hga : g a with _ | v
      · rw [@List.filterMap_cons_none String (String × β)
          (fun x => (g x).map fun v => (x, v)) a tl (by show Option.map (fun v => (a, v)) (g a) = none; rw [hga]; rfl)]
        exact ih (List.nodup_cons.1 hn).2 s hs
      · rw [@List.filterMap_cons_some String (String × β)
          (fun x => (g x).map fun v => (x, v)) a tl (a, v) (by show Option.map (fun v => (a, v)) (g a) = some (a, v); rw [hga]; rfl)]
        show (if a = s then some (a, v).2 else _) = g s
        rw [if_neg hsa]
        exact ih (List.nodup_cons.1 hn).2 s hs

/-- The per-class row function of `min_transicoes`. -/
theorem minTransicoes_row (afd : AFD String) (c : Finset String)
    (hc : c ∈ minEstados afd) :
    alookup c (minTransicoes afd) =
      some ((sortFS afd.alfabeto).filterMap fun s =>
        match afd.trans (repClasse c) s with
        | some d => if d ∈ encontrarEstadosAlcancaveis afd
            then some (s, classeDe afd d) else none
        | none => none) := by
  unfold minTransicoes
  exact alookup_map_self _ (minEstadosList afd) (List.nodup_dedup _)
    c ((mem_minEstadosList afd c).2 hc)

/-- Lookup of a symbol in a class row. -/
theorem minTransicoes_lookup (afd : AFD String) (c : Finset String)
    (hc : c ∈ minEstados afd) {s : String} (hs : s ∈ afd.alfabeto) :
    (minAfd afd).trans c s =
      match afd.trans (repClasse c) s with
      | some d => if d ∈ encontrarEstadosAlcancaveis afd
          then some (classeDe afd d) else none
      | none => none := by
  show (alookup c (minTransicoes afd)).bind (alookup s) = _
  rw [minTransicoes_row afd c hc, Option.some_bind]
  have hfun : (fun s => match afd.trans (repClasse c) s with
      | some d => if d ∈ encontrarEstadosAlcancaveis afd
          then some (s, classeDe afd d) else none
      | none => none) =
      fun x => (match afd.trans (repClasse c) x with
        | some d => if d ∈ encontrarEstadosAlcancaveis afd
            then some (classeDe afd d) else none
        | none => none).map fun v => (x, v) := by
    funext x
    rcases htr : afd.trans (repClasse c) x with _ | d
    · rfl
    · by_cases hd : d ∈ encontrarEstadosAlcancaveis afd
      · show (if d ∈ encontrarEstadosAlcancaveis afd
            then some (x, classeDe afd d) else none) =
          Option.map (fun v => (x, v)) (if d ∈ encontrarEstadosAlcancaveis afd
            then some (classeDe afd d) else none)
        rw [if_pos hd, if_pos hd, Option.map_some']
      · show (if d ∈ encontrarEstadosAlcancaveis afd
            then some (x, classeDe afd d) else none) =
          Option.map (fun v => (x, v)) (if d ∈ encontrarEstadosAlcancaveis afd
            then some (classeDe afd d) else none)
        rw [if_neg hd, if_neg hd, Option.map_none']
  rw [hfun, alookup_filterMap_some _ (sortFS afd.alfabeto) (sortFS_nodup _) s
    ((mem_sortFS afd.alfabeto s).2 hs)]

/-- Key transition lemma: on a valid automaton the minimized transition of
the class of `p` on `s` is the class of the successor of `p` on `s` —
the class transition is independent of the representative choice. -/
theorem minTrans_classe (afd : AFD String) (hv : (validar_afd afd).1 = true)
    {p s a : String} (hp : p ∈ encontrarEstadosAlcancaveis afd)
    (hs : s ∈ afd.alfabeto) (ha : afd.trans p s = some a) :
    (minAfd afd).trans (classeDe afd p) s = some (classeDe afd a) := by
  have hcmem : classeDe afd p ∈ minEstados afd := (mem_minEstados afd _).2 ⟨p, hp, rfl⟩
  have hrep : repClasse (classeDe afd p) ∈ classeDe afd p :=
    repClasse_mem ⟨p, self_mem_classeDe afd p hp⟩
  have hrepR : repClasse (classeDe afd p) ∈ encontrarEstadosAlcancaveis afd :=
    classeDe_subset_alc afd p hrep
  have hroot : dsuRootFinal afd (repClasse (classeDe afd p)) = dsuRootFinal afd p :=
    ((mem_classeDe afd p _).1 hrep).2
  obtain ⟨d, hd, hdR⟩ := valid_alc_trans afd hv hrepR hs
  rw [minTransicoes_lookup afd _ hcmem hs, hd]
  show (if d ∈ encontrarEstadosAlcancaveis afd
    then some (classeDe afd d) else none) = some (classeDe afd a)
  rw [if_pos hdR]
  have hindist : Indist afd (repClasse (classeDe afd p)) p :=
    indist_of_sameRoot afd hv hrepR hp hroot
  have hind2 : Indist afd d a := indist_step hs hd ha hindist
  have haR : a ∈ encontrarEstadosAlcancaveis afd :=
    alc_closed afd p a hp ⟨(valid_trans afd hv ha).2, s, hs, ha⟩
  have hroot2 : dsuRootFinal afd d = dsuRootFinal afd a :=
    sameRoot_of_indist afd hv hdR haR hind2
  rw [(classeDe_eq_iff afd hdR).2 hroot2]

/-- Acceptance of a class in the minimized automaton matches acceptance of
any of its members. -/
theorem minFinais_classe (afd : AFD String) (hv : (validar_afd afd).1 = true)
    {p : String} (hp : p ∈ encontrarEstadosAlcancaveis afd) :
    classeDe afd p ∈ (minAfd afd).finais ↔ p ∈ afd.finais := by
  show classeDe afd p ∈ (minEstados afd).filter _ ↔ _
  rw [Finset.mem_filter]
  constructor
  · rintro ⟨_, x, hx, hxf⟩
    have hxR : x ∈ encontrarEstadosAlcancaveis afd := classeDe_subset_alc afd p hx
    have hroot : dsuRootFinal afd x = dsuRootFinal afd p := ((mem_classeDe afd p x).1 hx).2
    have hind : Indist afd x p := indist_of_sameRoot afd hv hxR hp hroot
    exact (indist_finais hind).1 (Finset.mem_inter.1 hxf).1
  · intro hf
    exact ⟨(mem_minEstados afd _).2 ⟨p, hp, rfl⟩,
      p, self_mem_classeDe afd p hp,
      Finset.mem_inter.2 ⟨hf, hp⟩⟩

/-- Simulation: over words on the alphabet, the minimized automaton started
at the class of `p` accepts exactly when the original started at `p`
accepts. -/
theorem aceita_sim (afd : AFD String) (hv : (validar_afd afd).1 = true) :
    ∀ (w : List String), (∀ s ∈ w, s ∈ afd.alfabeto) →
      ∀ p, p ∈ encontrarEstadosAlcancaveis afd →
        aceitaDesde (minAfd afd) (classeDe afd p) w = aceitaDesde afd p w := by
  intro w
  induction w with
  | nil =>
    intro _ p hp
    rw [aceitaDesde_nil, aceitaDesde_nil, decide_eq_decide]
    exact minFinais_classe afd hv hp
  | cons s w' ih =>
    intro hsym p hp
    have hs : s ∈ afd.alfabeto := hsym s (List.mem_cons_self s w')
    obtain ⟨a, ha, haR⟩ := valid_alc_trans afd hv hp hs
    rw [aceitaDesde_cons_some (minTrans_classe afd hv hp hs ha),
      aceitaDesde_cons_some ha]
    exact ih (fun x hx => hsym x (List.mem_cons_of_mem s hx)) a haR

/-- Claim C1: for a valid input DFA, the minimized DFA emitted in the
`result` event accepts exactly the same strings over the alphabet as the
original. -/
theorem claim_C1 (afd : AFD String) (hv : (validar_afd afd).1 = true)
    (M : AFD (Finset String)) (hres : Event.result M ∈ minimizar_afd afd) :
    ∀ w : List String, (∀ s ∈ w, s ∈ afd.alfabeto) →
      aceita M w = aceita afd w := by
  obtain ⟨rfl, _, hini, _⟩ := result_mem_minimizar afd M hres
  intro w hw
  show aceitaDesde (minAfd afd) (classeDe afd afd.inicial) w = aceitaDesde afd afd.inicial w
  exact aceita_sim afd hv w hw afd.inicial hini

/-- Witness for C1 at a concrete valid two-state automaton and the word
`"a"`. -/
theorem claim_C1_witness :
    aceita (minAfd ⟨{"a"}, {"A", "B"}, "A", {"B"},
        [("A", [("a", "B")]), ("B", [("a", "B")])]⟩) ["a"] =
      aceita (⟨{"a"}, {"A", "B"}, "A", {"B"},
        [("A", [("a", "B")]), ("B", [("a", "B")])]⟩ : AFD String) ["a"] :=
  claim_C1 ⟨{"a"}, {"A", "B"}, "A", {"B"}, [("A", [("a", "B")]), ("B", [("a", "B")])]⟩
    (by decide) _ (by decide) ["a"] (by decide)

/-- Claim C3: for a valid input DFA, every state of the emitted minimized
DFA is reachable from the minimized DFA's own initial state via its own
transitions. -/
theorem claim_C3 (afd : AFD String) (hv : (validar_afd afd).1 = true)
    (M : AFD (Finset String)) (hres : Event.result M ∈ minimizar_afd afd) :
    M.estados ⊆ encontrarEstadosAlcancaveis M := by
  obtain ⟨rfl, _, hini, _⟩ := result_mem_minimizar afd M hres
  intro c hc
  obtain ⟨x, hx, rfl⟩ := (mem_minEstados afd c).1 hc
  have hkey : ∀ p, Relation.ReflTransGen (Passo afd) afd.inicial p →
      p ∈ encontrarEstadosAlcancaveis afd ∧
      Relation.ReflTransGen (Passo (minAfd afd)) (minAfd afd).inicial (classeDe afd p) := by
    intro p hrt
    induction hrt with
    | refl =>
      exact ⟨inicial_mem_alc afd (valid_inicial afd hv), Relation.ReflTransGen.refl⟩
    | tail hxy hstep ih =>
      rename_i x' y'
      obtain ⟨hxR, hrtM⟩ := ih
      obtain ⟨hyE, s, hs, htr⟩ := hstep
      have hyR : y' ∈ encontrarEstadosAlcancaveis afd := alc_closed afd x' y' hxR ⟨hyE, s, hs, htr⟩
      refine ⟨hyR, hrtM.tail ?_⟩
      refine ⟨(mem_minEstados afd _).2 ⟨y', hyR, rfl⟩, s, hs, ?_⟩
      exact minTrans_classe afd hv hxR hs htr
  have hrt := ((mem_alc_iff afd x).1 hx).2
  obtain ⟨_, hrtM⟩ := hkey x hrt
  refine (mem_alc_iff (minAfd afd) (classeDe afd x)).2 ⟨?_, hrtM⟩
  exact (mem_minEstados afd _).2 ⟨afd.inicial, inicial_mem_alc afd (valid_inicial afd hv), rfl⟩

/-- Witness for C3 at a concrete valid two-state automaton. -/
theorem claim_C3_witness :
    (minAfd ⟨{"a"}, {"A", "B"}, "A", {"B"},
        [("A", [("a", "B")]), ("B", [("a", "B")])]⟩).estados ⊆
      encontrarEstadosAlcancaveis (minAfd ⟨{"a"}, {"A", "B"}, "A", {"B"},
        [("A", [("a", "B")]), ("B", [("a", "B")])]⟩) :=
  claim_C3 ⟨{"a"}, {"A", "B"}, "A", {"B"}, [("A", [("a", "B")]), ("B", [("a", "B")])]⟩
    (by decide) _ (by decide)

end MinAfdLemmas

section Passes

theorem numSU_nil : numStepUpdate [] = 0 := rfl

theorem numSU_cons (e : Event) (l : List Event) :
    numStepUpdate (e :: l) = numStepUpdate l + (if e.ehStepUpdate then 1 else 0) :=
  List.countP_cons _ e l

theorem numSU_append (l1 l2 : List Event) :
    numStepUpdate (l1 ++ l2) = numStepUpdate l1 + numStepUpdate l2 :=
  List.countP_append _ l1 l2

theorem ehStepUpdate_info : Event.ehStepUpdate Event.info = false := rfl

theorem ehStepUpdate_update (n : Nat) (d : Finset (Finset String)) :
    Event.ehStepUpdate (Event.step_update n d) = true := rfl

theorem ehStepUpdate_table (n : Nat) (d : Finset (Finset String)) :
    Event.ehStepUpdate (Event.step_table n d) = false := rfl

/-- The number of `step_update` events of the marking loop started at level
`k` is the number of productive passes remaining before the first level `J`
with no newly marked pairs. -/
theorem loop_numSU (afd : AFD String) (R : Finset String) (J : Nat)
    (hJ : novasMarcacoes afd R (marcadosAte afd R J) = ∅)
    (hprod : ∀ j, j < J → novasMarcacoes afd R (marcadosAte afd R j) ≠ ∅) :
    ∀ (fuel k passo : Nat), k ≤ J → J - k < fuel →
      numStepUpdate (loopMarcacao afd R fuel passo (marcadosAte afd R k)).1 = J - k := by
  intro fuel
  induction fuel with
  | zero =>
    intro k passo _ hlt
    omega
  | succ n ih =>
    intro k passo hk hlt
    rw [loopMarcacao_succ]
    by_cases hnov : novasMarcacoes afd R (marcadosAte afd R k) = ∅
    · rw [if_pos hnov]
      have hkJ : k = J := by
        rcases Nat.lt_or_ge k J with h | h
        · exact absurd hnov (hprod k h)
        · omega
      show numStepUpdate [Event.info] = J - k
      rw [hkJ]
      simp [numStepUpdate, List.countP_cons, Event.ehStepUpdate]
    · rw [if_neg hnov]
      have hkJ : k < J := by
        rcases Nat.lt_or_ge k J with h | h
        · exact h
        · have : k = J := by omega
          rw [this] at hnov
          exact absurd hJ hnov
      have hnext : marcadosAte afd R k ∪ novasMarcacoes afd R (marcadosAte afd R k) =
          marcadosAte afd R (k + 1) := rfl
      simp only [numSU_cons, ehStepUpdate_update, ehStepUpdate_table, hnext]
      rw [ih (k + 1) (passo + 1) (by omega) (by omega),
        if_neg (show ¬((false : Bool) = true) by decide), if_pos trivial]
      omega

/-- Levels strictly below the first unproductive level have at least as many
marked pairs as their index. -/
theorem marcadosAte_card_ge (afd : AFD String) (R : Finset String) (J : Nat)
    (hprod : ∀ j, j < J → novasMarcacoes afd R (marcadosAte afd R j) ≠ ∅) :
    ∀ j, j ≤ J → j ≤ (marcadosAte afd R j).card := by
  intro j
  induction j with
  | zero => intro _; exact Nat.zero_le _
  | succ n ih =>
    intro hn
    have h1 : n ≤ (marcadosAte afd R n).card := ih (by omega)
    have hp := hprod n (by omega)
    have hdis := novas_disjoint afd R (marcadosAte afd R n)
    have hpos : 0 < (novasMarcacoes afd R (marcadosAte afd R n)).card :=
      Finset.card_pos.2 (Finset.nonempty_iff_ne_empty.2 hp)
    have hcard : (marcadosAte afd R (n + 1)).card =
        (marcadosAte afd R n).card +
          (novasMarcacoes afd R (marcadosAte afd R n)).card := by
      show (marcadosAte afd R n ∪ novasMarcacoes afd R (marcadosAte afd R n)).card = _
      rw [Finset.card_union_of_disjoint hdis.symm]
    omega

theorem repsAte_mono (afd : AFD String) (k : Nat) :
    repsAte afd k ⊆ repsAte afd (k + 1) := by
  intro p hp
  rw [repsAte, Finset.mem_filter] at hp ⊢
  exact ⟨hp.1, fun q hq he => hp.2 q hq (eqvAte_mono (Nat.le_succ k) he)⟩

/-- Every reachable state has a canonical representative in its
`k`-equivalence class. -/
theorem exists_rep (afd : AFD String) (k : Nat) {p : String}
    (hp : p ∈ encontrarEstadosAlcancaveis afd) :
    ∃ m ∈ encontrarEstadosAlcancaveis afd, eqvAte afd k p m ∧ m ∈ repsAte afd k := by
  set cl := (encontrarEstadosAlcancaveis afd).filter fun q => eqvAte afd k p q with hcl
  have hne : cl.Nonempty := ⟨p, Finset.mem_filter.2 ⟨hp, eqvAte_refl afd k p⟩⟩
  obtain ⟨m, hm, hmin⟩ := Finset.exists_min_image cl String.data hne
  rw [hcl, Finset.mem_filter] at hm
  refine ⟨m, hm.1, hm.2, ?_⟩
  rw [repsAte, Finset.mem_filter]
  refine ⟨hm.1, ?_⟩
  intro q hq he
  exact hmin q (Finset.mem_filter.2 ⟨hq, eqvAte_trans hm.2 he⟩)

/-- A strict refinement step adds at least one canonical representative. -/
theorem reps_card_lt (afd : AFD String) {k : Nat} {p q : String}
    (hp : p ∈ encontrarEstadosAlcancaveis afd)
    (hq : q ∈ encontrarEstadosAlcancaveis afd)
    (heq : eqvAte afd k p q) (hneq : ¬eqvAte afd (k + 1) p q) :
    (repsAte afd k).card < (repsAte afd (k + 1)).card := by
  obtain ⟨mp, hmpR, hpmp, hmpReps⟩ := exists_rep afd (k + 1) hp
  obtain ⟨mq, hmqR, hqmq, hmqReps⟩ := exists_rep afd (k + 1) hq
  have hne : mp ≠ mq := by
    rintro rfl
    exact hneq (eqvAte_trans hpmp (eqvAte_trans (eqvAte_symm hqmq) (eqvAte_refl afd _ q)))
  have hkclass : eqvAte afd k mp mq :=
    eqvAte_trans (eqvAte_symm (eqvAte_mono (Nat.le_succ k) hpmp))
      (eqvAte_trans heq (eqvAte_mono (Nat.le_succ k) hqmq))
  have hnotboth : ¬(mp ∈ repsAte afd k ∧ mq ∈ repsAte afd k) := by
    rintro ⟨h1, h2⟩
    rw [repsAte, Finset.mem_filter] at h1 h2
    have hle1 : strLe mp mq := h1.2 mq hmqR hkclass
    have hle2 : strLe mq mp := h2.2 mp hmpR (eqvAte_symm hkclass)
    apply hne
    cases mp
    cases mq
    exact congrArg String.mk (le_antisymm hle1 hle2)
  have hssub : repsAte afd k ⊂ repsAte afd (k + 1) := by
    refine ⟨repsAte_mono afd k, ?_⟩
    intro hsub
    by_cases hmp : mp ∈ repsAte afd k
    · by_cases hmq : mq ∈ repsAte afd k
      · exact hnotboth ⟨hmp, hmq⟩
      · exact hmq (hsub hmqReps)
    · exact hmp (hsub hmpReps)
  exact Finset.card_lt_card hssub

/-- A newly marked pair at level `j + 1` yields a pair equivalent at `j` but
not at `j + 1`. -/
theorem productive_strict (afd : AFD String) (hv : (validar_afd afd).1 = true)
    {j : Nat}
    (hp : novasMarcacoes afd (encontrarEstadosAlcancaveis afd)
      (marcadosAte afd (encontrarEstadosAlcancaveis afd) j) ≠ ∅) :
    ∃ p q, p ∈ encontrarEstadosAlcancaveis afd ∧ q ∈ encontrarEstadosAlcancaveis afd ∧
      eqvAte afd j p q ∧ ¬eqvAte afd (j + 1) p q := by
  obtain ⟨t, ht⟩ := Finset.nonempty_iff_ne_empty.2 hp
  have htnm : t ∉ marcadosAte afd (encontrarEstadosAlcancaveis afd) j :=
    Finset.disjoint_left.1 (novas_disjoint afd _ _) ht
  have htmem : t ∈ marcadosAte afd (encontrarEstadosAlcancaveis afd) (j + 1) :=
    Finset.mem_union_right _ ht
  obtain ⟨p, q, hpR, hqR, hne, rfl, hneq⟩ := (marcadosAte_iff afd hv (j + 1) t).1 htmem
  refine ⟨p, q, hpR, hqR, ?_, hneq⟩
  by_contra hj
  exact htnm ((marcadosAte_iff afd hv j _).2 ⟨p, q, hpR, hqR, hne, rfl, hj⟩)

/-- At least two representatives exist at level 0 whenever pass 1 can mark
anything (the initial marking is non-empty). -/
theorem reps0_two (afd : AFD String) (hv : (validar_afd afd).1 = true)
    (hprod0 : novasMarcacoes afd (encontrarEstadosAlcancaveis afd)
      (marcadosAte afd (encontrarEstadosAlcancaveis afd) 0) ≠ ∅) :
    2 ≤ (repsAte afd 0).card := by
  obtain ⟨t, ht⟩ := Finset.nonempty_iff_ne_empty.2 hprod0
  obtain ⟨_, _, _, _, _, _, _, _, _, a, b, _, _, _, hmk⟩ := (mem_novas_iff afd _ _ t).1 ht
  obtain ⟨p, q, hpR, hqR, hne, _, hneq⟩ := (marcadosAte_iff afd hv 0 _).1 hmk
  obtain ⟨mp, hmpR, hpmp, hmpReps⟩ := exists_rep afd 0 hpR
  obtain ⟨mq, hmqR, hqmq, hmqReps⟩ := exists_rep afd 0 hqR
  have hnem : mp ≠ mq := by
    rintro rfl
    exact hneq (eqvAte_trans hpmp (eqvAte_symm hqmq))
  exact Finset.one_lt_card.2 ⟨mp, hmpReps, mq, hmqReps, hnem⟩

theorem numSU_minimizar (afd : AFD String)
    (h1 : encontrarEstadosAlcancaveis afd ≠ ∅)
    (h2 : afd.inicial ∈ encontrarEstadosAlcancaveis afd) :
    numStepUpdate (minimizar_afd afd) =
      numStepUpdate (loopMarcacao afd (encontrarEstadosAlcancaveis afd) (loopFuel afd) 1
        (marcacaoInicial afd (encontrarEstadosAlcancaveis afd))).1 := by
  rw [minimizar_eq_main afd h1 h2, numSU_cons]
  simp only [numSU_append]
  have e1 : numStepUpdate [Event.info] = 0 := rfl
  have e2 : numStepUpdate (if (encontrarEstadosAlcancaveis afd).card < afd.estados.card
      then [Event.info] else []) = 0 := by
    split
    · rfl
    · rfl
  have e3 : numStepUpdate [Event.info, Event.step_table 0
      (marcacaoInicial afd (encontrarEstadosAlcancaveis afd))] = 0 := rfl
  have e4 : numStepUpdate [Event.info, Event.info] = 0 := rfl
  have e5 : numStepUpdate (if minEstados afd = ∅ then [Event.error]
      else [Event.info, Event.result (minAfd afd)]) = 0 := by
    split
    · rfl
    · rfl
  rw [e1, e2, e3, e4, e5, ehStepUpdate_info,
    if_neg (show ¬((false : Bool) = true) by decide)]
  omega

/-- Claim C8 (amended): for every input DFA that is valid per the Validator,
the fixed-point marking loop performs at most `|R| - 1` passes that mark new
pairs (`step_update` events). -/
theorem claim_C8 (afd : AFD String) (hv : (validar_afd afd).1 = true) :
    numStepUpdate (minimizar_afd afd) ≤ (encontrarEstadosAlcancaveis afd).card - 1 := by
  have h2 : afd.inicial ∈ encontrarEstadosAlcancaveis afd :=
    inicial_mem_alc afd (valid_inicial afd hv)
  have h1 : encontrarEstadosAlcancaveis afd ≠ ∅ := valid_alc_nonempty afd hv
  have hEx : ∃ j, novasMarcacoes afd (encontrarEstadosAlcancaveis afd)
      (marcadosAte afd (encontrarEstadosAlcancaveis afd) j) = ∅ := by
    obtain ⟨K, _, hfix⟩ := marcadosFinais_spec afd
    exact ⟨K, hfix⟩
  have hJ := Nat.find_spec hEx
  have hprod : ∀ j, j < Nat.find hEx →
      novasMarcacoes afd (encontrarEstadosAlcancaveis afd)
        (marcadosAte afd (encontrarEstadosAlcancaveis afd) j) ≠ ∅ :=
    fun j hj => Nat.find_min hEx hj
  have hcard := marcadosAte_card_ge afd (encontrarEstadosAlcancaveis afd)
    (Nat.find hEx) hprod (Nat.find hEx) (le_refl _)
  have hsub := marcadosAte_subset afd (encontrarEstadosAlcancaveis afd) (Nat.find hEx)
  have hJle : Nat.find hEx ≤ (allPairsFS (encontrarEstadosAlcancaveis afd)).card :=
    le_trans hcard (Finset.card_le_card hsub)
  have hnum : numStepUpdate (minimizar_afd afd) = Nat.find hEx := by
    rw [numSU_minimizar afd h1 h2,
      show marcacaoInicial afd (encontrarEstadosAlcancaveis afd) =
        marcadosAte afd (encontrarEstadosAlcancaveis afd) 0 from rfl,
      loop_numSU afd (encontrarEstadosAlcancaveis afd) (Nat.find hEx) hJ hprod
        (loopFuel afd) 0 1 (Nat.zero_le _) (by unfold loopFuel; omega)]
    omega
  rw [hnum]
  have hRpos : 1 ≤ (encontrarEstadosAlcancaveis afd).card :=
    Finset.card_pos.2 (Finset.nonempty_iff_ne_empty.2 h1)
  rcases Nat.eq_zero_or_pos (Nat.find hEx) with hJ0 | hJpos
  · omega
  · have h2reps := reps0_two afd hv (hprod 0 hJpos)
    have hchain : ∀ j, j ≤ Nat.find hEx →
        (repsAte afd 0).card + j ≤ (repsAte afd j).card := by
      intro j
      induction j with
      | zero => intro _; omega
      | succ n ih =>
        intro hn
        have hbase := ih (by omega)
        obtain ⟨p, q, hp, hq, he, hne⟩ := productive_strict afd hv (hprod n (by omega))
        have := reps_card_lt afd hp hq he hne
        omega
    have hfinal := hchain (Nat.find hEx) (le_refl _)
    have hrepsub : repsAte afd (Nat.find hEx) ⊆ encontrarEstadosAlcancaveis afd :=
      Finset.filter_subset _ _
    have := Finset.card_le_card hrepsub
    omega

/-- Witness for the amended C8 at a concrete valid two-state automaton. -/
theorem claim_C8_witness :
    numStepUpdate (minimizar_afd ⟨{"a"}, {"A", "B"}, "A", {"B"},
        [("A", [("a", "B")]), ("B", [("a", "B")])]⟩) ≤
      (encontrarEstadosAlcancaveis ⟨{"a"}, {"A", "B"}, "A", {"B"},
        [("A", [("a", "B")]), ("B", [("a", "B")])]⟩).card - 1 :=
  claim_C8 ⟨{"a"}, {"A", "B"}, "A", {"B"}, [("A", [("a", "B")]), ("B", [("a", "B")])]⟩
    (by decide)

/-- Counterexample to C8 as stated: an (incomplete, hence invalid) automaton
with 5 reachable states whose marking loop performs 5 passes that mark new
pairs — more than `|R| - 1 = 4` (the loop body runs 6 times in total). -/
theorem claim_C8_counterexample :
    (encontrarEstadosAlcancaveis ⟨{"1", "2", "3", "4", "5"},
        {"A", "B", "C", "D", "E"}, "A", {"E"},
        [("A", [("4", "B"), ("5", "A")]),
         ("B", [("2", "C"), ("3", "B"), ("5", "C")]),
         ("C", [("1", "A"), ("3", "D"), ("4", "C")]),
         ("D", [("1", "E"), ("2", "D")])]⟩).card = 5 ∧
    numStepUpdate (minimizar_afd ⟨{"1", "2", "3", "4", "5"},
        {"A", "B", "C", "D", "E"}, "A", {"E"},
        [("A", [("4", "B"), ("5", "A")]),
         ("B", [("2", "C"), ("3", "B"), ("5", "C")]),
         ("C", [("1", "A"), ("3", "D"), ("4", "C")]),
         ("D", [("1", "E"), ("2", "D")])]⟩) = 5 ∧
    (encontrarEstadosAlcancaveis ⟨{"1", "2", "3", "4", "5"},
        {"A", "B", "C", "D", "E"}, "A", {"E"},
        [("A", [("4", "B"), ("5", "A")]),
         ("B", [("2", "C"), ("3", "B"), ("5", "C")]),
         ("C", [("1", "A"), ("3", "D"), ("4", "C")]),
         ("D", [("1", "E"), ("2", "D")])]⟩).card - 1 <
      numStepUpdate (minimizar_afd ⟨{"1", "2", "3", "4", "5"},
        {"A", "B", "C", "D", "E"}, "A", {"E"},
        [("A", [("4", "B"), ("5", "A")]),
         ("B", [("2", "C"), ("3", "B"), ("5", "C")]),
         ("C", [("1", "A"), ("3", "D"), ("4", "C")]),
         ("D", [("1", "E"), ("2", "D")])]⟩) := by
  decide

end Passes

end DFAMin
